import Mathlib

/-!
Verification of the compact-part writer
(`src/Storages/MergeTree/MergeTreeDataPartWriterCompact.cpp`).

The development shallowly embeds the granularity-plan algorithm, the granule
planner, the marks/plain output protocol, the checksum computation and the
finalization order of the writer.  Machine integers (`size_t`, `UInt64`) are
modelled as `Nat`; none of the modelled quantities can overflow 64 bits in a
way the algorithms depend on.  Fallible code (`throw Exception`) is modelled
with `Except String`.
-/

namespace CompactWriter

/-! ## Granularity plan (`MergeTreeIndexGranularity`)

Modelled from the spec: the Adaptive Granularity Tracker contract (§4.1) —
an ordered sequence of per-mark row counts with `markCount()`,
`rowsInMark(i)`, `appendMark(rows)`, `addRowsToLastMark(rows)`,
`popLastMark()`.  The container implementation itself is not part of the
source tree under verification; it is represented as a `List Nat` of mark
row counts. -/

/-- `appendMark`: push a new mark with the given row count. -/
def appendMark (plan : List Nat) (rows : Nat) : List Nat :=
  plan ++ [rows]

/-- `addRowsToLastMark`: grow the most recent mark in place (on an empty
plan the rows become the first mark). -/
def addRowsToLastMark (plan : List Nat) (rows : Nat) : List Nat :=
  match plan.getLast? with
  | none => [rows]
  | some m => plan.dropLast ++ [m + rows]

/-- `popMark`: drop the most recent mark. -/
def popMark (plan : List Nat) : List Nat :=
  plan.dropLast

/-- `rowsInMark i` / `getMarkRows`: row count of mark `i`.  Out-of-range
access is undefined in the source; the model returns `0` there, and every
verified theorem only evaluates it in range. -/
def getMarkRows (plan : List Nat) (i : Nat) : Nat :=
  plan.getD i 0

/-! ## `fillIndexGranularityImpl` (source lines 324–351)

The C++ `for` loop walks `current_row` from `index_offset` in steps of
`index_granularity_for_block`.  The loop is embedded with explicit fuel:
the source asserts `index_granularity_for_block >= 1`, under which the loop
performs at most `rows_in_block` iterations, so fuel `rows_in_block`
reproduces it exactly. -/

/-- One-loop embedding of the `for` body of `fillIndexGranularityImpl`. -/
def fillLoopFuel (index_granularity_for_block rows_in_block index_offset : Nat) :
    Nat → Nat → List Nat → List Nat
  | 0, _, plan => plan
  | fuel + 1, current_row, plan =>
    if current_row < rows_in_block then
      let rows_left_in_block := rows_in_block - current_row
      let plan' :=
        if rows_left_in_block < index_granularity_for_block ∧
            (index_granularity_for_block ≤ rows_in_block ∨ index_offset ≠ 0) then
          if index_granularity_for_block ≤ rows_left_in_block * 2 then
            appendMark plan rows_left_in_block
          else
            addRowsToLastMark plan rows_left_in_block
        else
          appendMark plan index_granularity_for_block
      fillLoopFuel index_granularity_for_block rows_in_block index_offset fuel
        (current_row + index_granularity_for_block) plan'
    else plan

/-- `fillIndexGranularityImpl(index_granularity, index_offset,
index_granularity_for_block, rows_in_block)`. -/
def fillIndexGranularityImpl (index_granularity : List Nat)
    (index_offset index_granularity_for_block rows_in_block : Nat) : List Nat :=
  fillLoopFuel index_granularity_for_block rows_in_block index_offset
    rows_in_block index_offset index_granularity

/-- Specification-side rendering of one step of the walk described by the
spec (§4.1): at row position `current_row`, if the remaining rows are fewer
than the target and (the block has at least a full granule or this is not
the first mark being extended), either start a new mark sized to the
remainder (when the remainder is at least half the target) or grow the
previous mark; otherwise append a full-size mark. -/
def fillStep (index_granularity_for_block rows_in_block index_offset current_row : Nat)
    (plan : List Nat) : List Nat :=
  let rows_left_in_block := rows_in_block - current_row
  if rows_left_in_block < index_granularity_for_block ∧
      (index_granularity_for_block ≤ rows_in_block ∨ index_offset ≠ 0) then
    if index_granularity_for_block ≤ rows_left_in_block * 2 then
      appendMark plan rows_left_in_block
    else
      addRowsToLastMark plan rows_left_in_block
  else
    appendMark plan index_granularity_for_block

/-- Fuel-truncated list of row positions visited by the walk. -/
def walkPositionsF : Nat → Nat → Nat → Nat → List Nat
  | 0, _, _, _ => []
  | fuel + 1, step, stop, current =>
    if current < stop then
      current :: walkPositionsF fuel step stop (current + step)
    else []

/-- Row positions visited when walking from `current` to `stop` in steps of
`step` (the spec's "walk row positions in steps of `G` starting at
`index_offset`"). -/
def walkPositions (step stop : Nat) (hstep : 0 < step) (current : Nat) : List Nat :=
  if _h : current < stop then
    current :: walkPositions step stop hstep (current + step)
  else []
termination_by stop - current
decreasing_by omega

/-- Closed form of the marks produced by walking `m` remaining rows with
target `G` when the extend/grow branch is enabled (helper for proofs). -/
def fillTail (plan : List Nat) (G m : Nat) : List Nat :=
  if m % G = 0 then plan ++ List.replicate (m / G) G
  else if G ≤ 2 * (m % G) then (plan ++ List.replicate (m / G) G) ++ [m % G]
  else if m / G = 0 then addRowsToLastMark plan m
  else (plan ++ List.replicate (m / G - 1) G) ++ [G + m % G]

/-! ## Granules and `getGranulesToWrite` (source lines 104–138) -/

/-- Mirror of the `Granule` struct. -/
structure Granule where
  start_row : Nat
  rows_to_write : Nat
  mark_number : Nat
  mark_on_start : Bool
  is_complete : Bool
deriving DecidableEq, Repr

/-- The `while (current_row < block_rows)` loop of `getGranulesToWrite`.
Fuel `block_rows` suffices whenever the marks being consumed are non-empty
(which the writer guarantees); exhausted fuel corresponds to the source
walking past the end of the plan, which is undefined behaviour there and is
modelled as an error. -/
def granulesLoop (index_granularity : List Nat) (block_rows : Nat) (last_block : Bool) :
    Nat → Nat → Nat → Except String (List Granule)
  | fuel, current_row, current_mark =>
    if current_row < block_rows then
      match fuel with
      | 0 => Except.error "granulesLoop: walked past the end of the granularity plan"
      | fuel + 1 =>
        let expected_rows_in_mark := getMarkRows index_granularity current_mark
        let rows_left_in_block := block_rows - current_row
        if rows_left_in_block < expected_rows_in_mark ∧ last_block = false then
          Except.error "Required to write more rows than was written for the non last granule"
        else
          let g : Granule :=
            { start_row := current_row
              rows_to_write := min rows_left_in_block expected_rows_in_mark
              mark_number := current_mark
              mark_on_start := true
              is_complete := decide (expected_rows_in_mark ≤ rows_left_in_block) }
          match granulesLoop index_granularity block_rows last_block fuel
              (current_row + g.rows_to_write) (current_mark + 1) with
          | .ok rest => Except.ok (g :: rest)
          | .error e => Except.error e
    else Except.ok []

/-- `getGranulesToWrite(index_granularity, block_rows, current_mark,
last_block)`. -/
def getGranulesToWrite (index_granularity : List Nat) (block_rows current_mark : Nat)
    (last_block : Bool) : Except String (List Granule) :=
  if index_granularity.length ≤ current_mark then
    Except.error "Request to get granules from a mark not below the index granularity size"
  else
    granulesLoop index_granularity block_rows last_block block_rows 0 current_mark

/-- Whether an `Except` value is an error. -/
def isError : Except String (List Granule) → Bool
  | .error _ => true
  | .ok _ => false

/-- Specification-side predicate for the claim's error condition: some step
of the walk has fewer rows remaining than the current mark requires.  The
list argument is the plan suffix starting at the current mark. -/
def hasShortfall : List Nat → Nat → Bool
  | _, 0 => false
  | [], _ + 1 => false
  | m :: rest, r + 1 =>
    if r + 1 < m then true else hasShortfall rest (r + 1 - m)

/-- Specification-side characterisation of a granule sequence (claim C3):
each granule starts where the previous ended, takes
`min (rows remaining) (rowsInMark M)` rows, records completeness as
`rows remaining ≥ rowsInMark M`, and advances the mark cursor by one. -/
def GranChain (plan : List Nat) (block_rows : Nat) : Nat → Nat → List Granule → Prop
  | current_row, _, [] => block_rows ≤ current_row
  | current_row, current_mark, g :: rest =>
    current_row < block_rows ∧
    g.start_row = current_row ∧
    g.mark_number = current_mark ∧
    g.mark_on_start = true ∧
    g.rows_to_write = min (block_rows - current_row) (getMarkRows plan current_mark) ∧
    g.is_complete = decide (getMarkRows plan current_mark ≤ block_rows - current_row) ∧
    GranChain plan block_rows (current_row + g.rows_to_write) (current_mark + 1) rest

/-! ## The buffering `write` path (source lines 162–190, 353–364) -/

/-- Granularity-relevant writer state: the plan, the current mark cursor and
the number of rows buffered in `columns_buffer`. -/
structure GranState where
  plan : List Nat
  cur : Nat
  buf : Nat
deriving DecidableEq, Repr

/-- `MergeTreeDataPartWriterCompact::fillIndexGranularity` (lines 353–364). -/
def fillIndexGranularity (index_granularity_for_block rows_in_block : Nat)
    (s : GranState) : List Nat :=
  let index_offset :=
    if s.cur < s.plan.length then getMarkRows s.plan s.cur - s.buf else 0
  fillIndexGranularityImpl s.plan index_offset index_granularity_for_block rows_in_block

/-- One call of `write` with a block of `rows` rows along the
`compute_granularity` path (lines 162–190): extend the plan, add the block
to the buffer, and flush through `getGranulesToWrite` when the buffer
reaches the current mark boundary. -/
def writeBlock (G rows : Nat) (s : GranState) : Except String GranState :=
  let plan' := fillIndexGranularity G rows s
  let rows_in_buffer := s.buf + rows
  let current_mark_rows := getMarkRows plan' s.cur
  if current_mark_rows ≤ rows_in_buffer then
    match getGranulesToWrite plan' rows_in_buffer s.cur false with
    | .ok granules_to_write =>
      Except.ok ⟨plan', s.cur + granules_to_write.length, 0⟩
    | .error e => Except.error e
  else
    Except.ok ⟨plan', s.cur, rows_in_buffer⟩

/-- Sequence of `write` calls. -/
def runBlocks (G : Nat) : List Nat → GranState → Except String GranState
  | [], s => Except.ok s
  | rows :: rest, s =>
    match writeBlock G rows s with
    | .ok s' => runBlocks G rest s'
    | .error e => Except.error e

/-- The final-flush plan correction of `fillDataChecksums` (lines 258–268):
on shutdown with a non-empty buffer, compute granules with
`last_block = true` and, when the last granule is incomplete, pop the last
mark and re-append it sized to the granule's actual `rows_to_write`.
(`granules_to_write.back()` on an empty vector is undefined in the source;
with a non-empty buffer the granule list is never empty, and the model
returns the unchanged plan in that unreachable case.) -/
def finalFlushPlan (plan : List Nat) (current_mark buffered_rows : Nat) :
    Except String (List Nat) :=
  if buffered_rows ≠ 0 then
    match getGranulesToWrite plan buffered_rows current_mark true with
    | .ok granules_to_write =>
      match granules_to_write.getLast? with
      | some g =>
        if g.is_complete = false then
          Except.ok (appendMark (popMark plan) g.rows_to_write)
        else Except.ok plan
      | none => Except.ok plan
    | .error e => Except.error e
  else Except.ok plan

/-- Full granularity life cycle of the writer: a sequence of `write` calls
starting from the fresh state, followed by the final flush. -/
def runWriter (G : Nat) (blocks : List Nat) : Except String (List Nat) :=
  match runBlocks G blocks ⟨[], 0, 0⟩ with
  | .ok s => finalFlushPlan s.plan s.cur s.buf
  | .error e => Except.error e

/-- Mark-size invariant maintained by the filling algorithm: every mark is
at least half and less than twice the target granule size. -/
def marksOK (G : Nat) (plan : List Nat) : Prop :=
  ∀ x ∈ plan, G ≤ 2 * x ∧ x < 2 * G

/-- Reachability invariant of the granularity state: either the buffer is
empty and the cursor sits past the last mark, or the cursor is on the last
mark, that mark is a full-size `G` mark, and the buffer holds fewer than
`G` rows. -/
def WriterInv (G total : Nat) (s : GranState) : Prop :=
  (s.cur = s.plan.length ∧ s.buf = 0 ∧ s.plan.sum = total ∧ marksOK G s.plan ∧
    (s.plan = [] ∨ G ≤ s.plan.sum)) ∨
  (s.cur + 1 = s.plan.length ∧ 0 < s.buf ∧ s.buf < G ∧
    s.plan.getLast? = some G ∧ s.plan.sum + s.buf = total + G ∧ marksOK G s.plan ∧
    (s.plan.dropLast = [] ∨ G ≤ total))

/-! ## Marks and data output of `writeDataBlock` (source lines 206–254)

The plain output is represented by its running byte count
(`plain_hashing.count()`), the marks output by the list of `UInt64` words
written to it, in order.  The bytes produced by the serialization layer for
one column of one granule are an abstract parameter
`bytes : Nat → Nat → Nat` (mark number, column index ↦ bytes appended to
the plain output, all flushed by the end of the column). -/

/-- Output-side writer state. -/
structure OutState where
  plain_count : Nat
  marks : List Nat
  data_written : Bool
deriving DecidableEq, Repr

/-- Body of the per-granule loop of `writeDataBlock`: set `data_written`,
then for each column in schema order write the mark record
`(plain_hashing.count(), 0)` followed by the column's data, and finally the
trailing `rows_to_write` word. -/
def writeGranule (ncols : Nat) (bytes : Nat → Nat → Nat) (g : Granule)
    (st : OutState) : OutState :=
  let st1 : OutState := { st with data_written := true }
  let st2 := (List.range ncols).foldl
    (fun acc i =>
      { acc with
        marks := acc.marks ++ [acc.plain_count, 0]
        plain_count := acc.plain_count + bytes g.mark_number i }) st1
  { st2 with marks := st2.marks ++ [g.rows_to_write] }

/-- `writeDataBlock`: write every granule of the flush unit. -/
def writeDataBlock (ncols : Nat) (bytes : Nat → Nat → Nat)
    (granules : List Granule) (st : OutState) : OutState :=
  granules.foldl (fun acc g => writeGranule ncols bytes g acc) st

/-- The trailing synthetic mark of `fillDataChecksums` (lines 279–287):
written only when a final mark is configured and data was written; one
`(plain_hashing.count(), 0)` record per column plus a trailing zero row
count. -/
def writeFinalMark (ncols : Nat) (with_final_mark : Bool) (st : OutState) : OutState :=
  if with_final_mark && st.data_written then
    let st1 := (List.range ncols).foldl
      (fun acc _ => { acc with marks := acc.marks ++ [acc.plain_count, 0] }) st
    { st1 with marks := st1.marks ++ [0] }
  else st

/-- Total bytes the serialization layer appends for one granule. -/
def granuleBytesTotal (ncols : Nat) (colBytes : Nat → Nat) : Nat :=
  ((List.range ncols).map colBytes).sum

/-- Specification-side shape of the mark words for one granule (claim C6):
for each column in order a two-field record whose first field is the
running plain-output byte count and whose second field is `0`, then one
trailing row-count field. -/
def granuleMarkWords (ncols : Nat) (colBytes : Nat → Nat) (plain0 : Nat)
    (g : Granule) : List Nat :=
  ((List.range ncols).flatMap fun i =>
    [plain0 + ((List.range i).map colBytes).sum, 0]) ++ [g.rows_to_write]

/-- Specification-side shape of the mark words for a whole flush unit. -/
def blockMarkWords (ncols : Nat) (bytes : Nat → Nat → Nat) :
    List Granule → Nat → List Nat
  | [], _ => []
  | g :: rest, plain0 =>
    granuleMarkWords ncols (bytes g.mark_number) plain0 g ++
      blockMarkWords ncols bytes rest (plain0 + granuleBytesTotal ncols (bytes g.mark_number))

/-! ## Checksums (`addToChecksums`, source lines 366–398)

Hashes are opaque 128-bit values modelled as `Nat × Nat`;
`CityHash128WithSeed` applied to the 16 little-endian bytes of a stream
hash and a seed is an abstract parameter `H : hash → seed → hash`. -/

/-- Byte count and hash of one hashing buffer. -/
structure HashState where
  count : Nat
  hash : Nat × Nat
deriving DecidableEq, Repr

/-- One entry of `MergeTreeDataPartChecksums` (fields default-initialised as
in the source). -/
structure ChecksumEntry where
  is_compressed : Bool := false
  uncompressed_size : Nat := 0
  uncompressed_hash : Nat × Nat := (0, 0)
  file_size : Nat := 0
  file_hash : Nat × Nat := (0, 0)
deriving DecidableEq, Repr

/-- The hashing state of the writer at finalization time.  `streams` lists
`streams_by_codec` in iteration order; for a given schema the map is built
by the same insertion sequence, so the order is a deterministic function of
the schema and is modelled as that fixed list. -/
structure WriterHashes where
  streams : List HashState
  plain : HashState
  marks_compressed : Bool
  marks_source : HashState
  marks_file : HashState
deriving DecidableEq, Repr

/-- `addToChecksums`: the data-file entry and the marks-file entry.  The
combined uncompressed size and hash are accumulated over `streams` in one
pass, folding each stream hash into the running 128-bit hash with `H`. -/
def addToChecksums (H : Nat × Nat → Nat × Nat → Nat × Nat) (w : WriterHashes) :
    ChecksumEntry × ChecksumEntry :=
  let acc := w.streams.foldl
    (fun (acc : Nat × (Nat × Nat)) s => (acc.1 + s.count, H s.hash acc.2))
    (0, (0, 0))
  let data : ChecksumEntry :=
    { is_compressed := true
      uncompressed_size := acc.1
      uncompressed_hash := acc.2
      file_size := w.plain.count
      file_hash := w.plain.hash }
  let marks : ChecksumEntry :=
    if w.marks_compressed then
      { is_compressed := true
        uncompressed_size := w.marks_source.count
        uncompressed_hash := w.marks_source.hash
        file_size := w.marks_file.count
        file_hash := w.marks_file.hash }
    else
      { file_size := w.marks_file.count
        file_hash := w.marks_file.hash }
  (data, marks)

/-- Specification-side description of the combined uncompressed hash
(claim C7): fold each stream's hash into a running 128-bit hash seeded by
the previous result, in stream order, starting from zero. -/
def specFoldHash (H : Nat × Nat → Nat × Nat → Nat × Nat)
    (hashes : List (Nat × Nat)) : Nat × Nat :=
  hashes.foldl (fun seed h => H h seed) (0, 0)

/-! ## Finalization order of `fillDataChecksums` (source lines 289–304) -/

/-- The individual buffers sealed during data finalization. -/
inductive FinTarget where
  | streamHashingBuf : Nat → FinTarget
  | streamCompressedBuf : Nat → FinTarget
  | plainHashing : FinTarget
  | plainFileNext : FinTarget
  | marksSourceHashing : FinTarget
  | marksCompressor : FinTarget
  | marksFileHashing : FinTarget
deriving DecidableEq, Repr

/-- The finalization sequence of the source, in program order: for each
compressed stream its hashing buffer then its compressing buffer, then the
plain hashing buffer, then the plain file's `next()`, then (when marks are
compressed) the marks source hashing wrapper and the marks compressor, and
finally the marks file hashing wrapper. -/
def finalizeSequence (nstreams : Nat) (marks_compressed : Bool) : List FinTarget :=
  ((List.range nstreams).flatMap fun i =>
    [FinTarget.streamHashingBuf i, FinTarget.streamCompressedBuf i]) ++
  [FinTarget.plainHashing, FinTarget.plainFileNext] ++
  (if marks_compressed then [FinTarget.marksSourceHashing, FinTarget.marksCompressor]
   else []) ++
  [FinTarget.marksFileHashing]

/-- C++ exception semantics of the straight-line finalize calls: targets are
attempted in order; the first failing call throws, so the targets after it
are not finalized.  Returns the successfully finalized targets and the
first failure, if any. -/
def runFinalize (fails : FinTarget → Bool) : List FinTarget → List FinTarget × Option FinTarget
  | [] => ([], none)
  | t :: rest =>
    if fails t then ([], some t)
    else
      let r := runFinalize fails rest
      (t :: r.1, r.2)

/-! ## `fillChecksums` and `finish` (source lines 426–448) -/

/-- The three finalization phases dispatched by `fillChecksums`/`finish`. -/
inductive FinalizePhase where
  | dataPhase : FinalizePhase
  | primaryIndexPhase : FinalizePhase
  | skipIndicesPhase : FinalizePhase
deriving DecidableEq, Repr

/-- Phases run by `fillChecksums`, in order: data (unless the column list
is empty), primary index (when `rewrite_primary_key`), skip indices. -/
def fillChecksumsPhases (columns_list : List String) (rewrite_primary_key : Bool) :
    List FinalizePhase :=
  (if columns_list.isEmpty then [] else [FinalizePhase.dataPhase]) ++
  (if rewrite_primary_key then [FinalizePhase.primaryIndexPhase] else []) ++
  [FinalizePhase.skipIndicesPhase]

/-- Phases run by `finish`, in the same order. -/
def finishPhases (columns_list : List String) (rewrite_primary_key : Bool) :
    List FinalizePhase :=
  (if columns_list.isEmpty then [] else [FinalizePhase.dataPhase]) ++
  (if rewrite_primary_key then [FinalizePhase.primaryIndexPhase] else []) ++
  [FinalizePhase.skipIndicesPhase]

/-- Checksum file entries produced by the data phase of `fillChecksums`:
the data file and the marks file, or none at all when the column list is
empty (in which case `fillDataChecksums` is not called). -/
def fillChecksumsDataFiles (columns_list : List String)
    (data_file_name marks_file_name : String) : List String :=
  if columns_list.isEmpty then [] else [data_file_name, marks_file_name]

/-! ## Basic lemmas -/

theorem addRowsToLastMark_append (xs : List Nat) (a r : Nat) :
    addRowsToLastMark (xs ++ [a]) r = xs ++ [a + r] := by
  simp [addRowsToLastMark]

theorem fillLoop_stop (G rib io fuel cr : Nat) (plan : List Nat) (h : ¬ cr < rib) :
    fillLoopFuel G rib io fuel cr plan = plan := by
  cases fuel with
  | zero => rfl
  | succ fuel => simp [fillLoopFuel, h]

/-! ## C1: the walk structure of `fillIndexGranularityImpl` -/

theorem fillLoop_foldF (G rib io : Nat) : ∀ fuel cr plan,
    fillLoopFuel G rib io fuel cr plan =
      (walkPositionsF fuel G rib cr).foldl (fun p c => fillStep G rib io c p) plan := by
  intro fuel
  induction fuel with
  | zero => intro cr plan; rfl
  | succ fuel ih =>
    intro cr plan
    by_cases h : cr < rib
    · simp only [fillLoopFuel, walkPositionsF, h, if_pos, List.foldl_cons]
      exact ih (cr + G) (fillStep G rib io cr plan)
    · simp [fillLoopFuel, walkPositionsF, h]

theorem walkPositionsF_eq_walkPositions (G stop : Nat) (hG : 0 < G) :
    ∀ fuel cr, stop - cr ≤ fuel →
      walkPositionsF fuel G stop cr = walkPositions G stop hG cr := by
  intro fuel
  induction fuel with
  | zero =>
    intro cr h
    rw [walkPositions]
    have hcr : ¬ cr < stop := by omega
    simp [walkPositionsF, hcr]
  | succ fuel ih =>
    intro cr h
    rw [walkPositions]
    by_cases hcr : cr < stop
    · simp only [walkPositionsF, hcr, if_pos, dif_pos]
      rw [ih (cr + G) (by omega)]
    · simp [walkPositionsF, hcr]

/-- C1.  For every block appended to the granularity plan with target
granule size `G`, starting row offset `index_offset` and `rows_in_block`
rows, the plan is extended by walking row positions in steps of `G` from
`index_offset`, applying at each position the case analysis of `fillStep`:
if fewer than `G` rows remain and (the block has at least `G` rows or
`index_offset ≠ 0`), a new mark sized to the remainder is appended when
`2 * remainder ≥ G` and otherwise the remainder is added to the last mark;
in all other cases a full-size mark of `G` rows is appended. -/
theorem fillIndexGranularityImpl_walk (plan : List Nat)
    (index_offset G rows_in_block : Nat) (hG : 0 < G) :
    fillIndexGranularityImpl plan index_offset G rows_in_block =
      (walkPositions G rows_in_block hG index_offset).foldl
        (fun p current_row => fillStep G rows_in_block index_offset current_row p) plan := by
  rw [fillIndexGranularityImpl, fillLoop_foldF,
    walkPositionsF_eq_walkPositions G rows_in_block hG rows_in_block index_offset (by omega)]

theorem fillIndexGranularityImpl_walk_witness :
    0 < 2 ∧ fillIndexGranularityImpl [] 0 2 5 =
      (walkPositions 2 5 (by norm_num) 0).foldl
        (fun p current_row => fillStep 2 5 0 current_row p) [] :=
  ⟨by norm_num, fillIndexGranularityImpl_walk [] 0 2 5 (by norm_num)⟩

/-! ## C9: empty column list skips only the data phase -/

/-- C9.  With an empty column list, `fillChecksums` skips the data phase
(so no data-file or marks-file checksum entries are produced) and `finish`
skips data-stream finalization, while primary-index finalization (when
`rewrite_primary_key` is set) and skip-index finalization still run; for a
non-empty column list the phases run in the order data, primary index,
skip indices. -/
theorem fillChecksums_empty_columns (rewrite_primary_key : Bool)
    (data_file_name marks_file_name : String) :
    fillChecksumsPhases [] rewrite_primary_key =
      (if rewrite_primary_key then [FinalizePhase.primaryIndexPhase] else []) ++
        [FinalizePhase.skipIndicesPhase] ∧
    FinalizePhase.dataPhase ∉ fillChecksumsPhases [] rewrite_primary_key ∧
    FinalizePhase.skipIndicesPhase ∈ fillChecksumsPhases [] rewrite_primary_key ∧
    (rewrite_primary_key = true →
      FinalizePhase.primaryIndexPhase ∈ fillChecksumsPhases [] rewrite_primary_key) ∧
    fillChecksumsDataFiles [] data_file_name marks_file_name = [] ∧
    finishPhases [] rewrite_primary_key =
      (if rewrite_primary_key then [FinalizePhase.primaryIndexPhase] else []) ++
        [FinalizePhase.skipIndicesPhase] ∧
    FinalizePhase.dataPhase ∉ finishPhases [] rewrite_primary_key ∧
    FinalizePhase.skipIndicesPhase ∈ finishPhases [] rewrite_primary_key ∧
    (∀ columns_list : List String, columns_list ≠ [] →
      fillChecksumsPhases columns_list true =
        [FinalizePhase.dataPhase, FinalizePhase.primaryIndexPhase,
          FinalizePhase.skipIndicesPhase]) := by
  cases rewrite_primary_key <;>
    refine ⟨by simp [fillChecksumsPhases], by simp [fillChecksumsPhases],
      by simp [fillChecksumsPhases], by simp [fillChecksumsPhases],
      by simp [fillChecksumsDataFiles], by simp [finishPhases],
      by simp [finishPhases], by simp [finishPhases], ?_⟩ <;>
    · intro columns_list hne
      cases columns_list with
      | nil => exact absurd rfl hne
      | cons a l => simp [fillChecksumsPhases]

/-! ## Marks output: structure lemmas for `writeDataBlock` -/

theorem sum_map_const (k : Nat) : ∀ n, ((List.range n).map fun _ => k).sum = n * k := by
  intro n
  induction n with
  | zero => simp
  | succ n ih => rw [List.range_succ]; simp [ih, Nat.succ_mul]

theorem length_flatMap_pairs (f : Nat → Nat) :
    ∀ n, (((List.range n).flatMap fun i => [f i, 0]) : List Nat).length = 2 * n := by
  intro n
  induction n with
  | zero => simp
  | succ n ih =>
    rw [List.range_succ, List.flatMap_append]
    simp only [List.length_append, ih]
    simp
    omega

theorem writeGranule_inner_fold (bytes : Nat → Nat → Nat) (g : Granule) :
    ∀ (n : Nat) (st : OutState),
      (List.range n).foldl
        (fun acc i =>
          { acc with
            marks := acc.marks ++ [acc.plain_count, 0]
            plain_count := acc.plain_count + bytes g.mark_number i }) st =
      { st with
        marks := st.marks ++ ((List.range n).flatMap fun i =>
          [st.plain_count + ((List.range i).map (bytes g.mark_number)).sum, 0])
        plain_count := st.plain_count + ((List.range n).map (bytes g.mark_number)).sum } := by
  intro n
  induction n with
  | zero => intro st; simp
  | succ n ih =>
    intro st
    rw [List.range_succ, List.foldl_append, ih st]
    simp [List.flatMap_append, Nat.add_assoc]

theorem writeGranule_eq (ncols : Nat) (bytes : Nat → Nat → Nat) (g : Granule)
    (st : OutState) :
    writeGranule ncols bytes g st =
      { plain_count := st.plain_count + granuleBytesTotal ncols (bytes g.mark_number)
        marks := st.marks ++ granuleMarkWords ncols (bytes g.mark_number) st.plain_count g
        data_written := true } := by
  rw [writeGranule, writeGranule_inner_fold]
  simp [granuleMarkWords, granuleBytesTotal]

theorem writeDataBlock_eq (ncols : Nat) (bytes : Nat → Nat → Nat) :
    ∀ (gs : List Granule) (st : OutState),
      writeDataBlock ncols bytes gs st =
        { plain_count := st.plain_count +
            (gs.map fun g => granuleBytesTotal ncols (bytes g.mark_number)).sum
          marks := st.marks ++ blockMarkWords ncols bytes gs st.plain_count
          data_written := st.data_written || !gs.isEmpty } := by
  intro gs
  induction gs with
  | nil => intro st; simp [writeDataBlock, blockMarkWords]
  | cons g rest ih =>
    intro st
    have hstep : writeDataBlock ncols bytes (g :: rest) st =
        writeDataBlock ncols bytes rest (writeGranule ncols bytes g st) := rfl
    rw [hstep, ih, writeGranule_eq]
    simp [blockMarkWords, Nat.add_assoc]

theorem granuleMarkWords_length (ncols : Nat) (colBytes : Nat → Nat) (plain0 : Nat)
    (g : Granule) :
    (granuleMarkWords ncols colBytes plain0 g).length = 2 * ncols + 1 := by
  rw [granuleMarkWords, List.length_append,
    length_flatMap_pairs (fun i => plain0 + ((List.range i).map colBytes).sum)]
  simp

theorem blockMarkWords_length (ncols : Nat) (bytes : Nat → Nat → Nat) :
    ∀ (gs : List Granule) (plain0 : Nat),
      (blockMarkWords ncols bytes gs plain0).length = gs.length * (2 * ncols + 1) := by
  intro gs
  induction gs with
  | nil => intro plain0; simp [blockMarkWords]
  | cons g rest ih =>
    intro plain0
    rw [blockMarkWords, List.length_append, granuleMarkWords_length, ih]
    simp only [List.length_cons]
    ring

theorem writeFinalMark_inner_fold :
    ∀ (n : Nat) (st : OutState),
      (List.range n).foldl
        (fun acc _ => { acc with marks := acc.marks ++ [acc.plain_count, 0] }) st =
      { st with
        marks := st.marks ++ ((List.range n).flatMap fun _ => [st.plain_count, 0]) } := by
  intro n
  induction n with
  | zero => intro st; simp
  | succ n ih =>
    intro st
    rw [List.range_succ, List.foldl_append, ih st]
    simp [List.flatMap_append]

theorem writeFinalMark_eq_of_data (ncols : Nat) (st : OutState)
    (h : st.data_written = true) :
    writeFinalMark ncols true st =
      { st with marks := st.marks ++
          (((List.range ncols).flatMap fun _ => [st.plain_count, 0]) ++ [0]) } := by
  rw [writeFinalMark, h]
  simp only [Bool.and_self, if_true]
  rw [writeFinalMark_inner_fold]
  simp [h]

theorem writeFinalMark_skip (ncols : Nat) (wfm : Bool) (st : OutState)
    (h : st.data_written = false) :
    writeFinalMark ncols wfm st = st := by
  rw [writeFinalMark]
  simp [h]

/-- C6.  For every non-empty flush unit: the words appended to the marks
output by `writeDataBlock` are exactly, per granule and per column in
schema order, a record `(current plain-output byte count, 0)` written
before the column's data, followed by one trailing row-count word equal to
the granule's `rows_to_write` (the shape `blockMarkWords`, whose second
field of every record is the literal `0`); `g` granules over `c` columns
thus append `g * (2c + 1)` words, and the configured trailing synthetic
mark appends `c` further records `(end offset, 0)` plus one trailing zero,
i.e. `2c + 1` more words. -/
theorem writeDataBlock_mark_records (ncols : Nat) (bytes : Nat → Nat → Nat)
    (wfm : Bool) (gs : List Granule) (st : OutState) (hne : gs ≠ []) :
    (writeDataBlock ncols bytes gs st).marks =
        st.marks ++ blockMarkWords ncols bytes gs st.plain_count ∧
    (writeDataBlock ncols bytes gs st).marks.length =
        st.marks.length + gs.length * (2 * ncols + 1) ∧
    (writeFinalMark ncols wfm (writeDataBlock ncols bytes gs st)).marks =
        (writeDataBlock ncols bytes gs st).marks ++
          (if wfm then
            (((List.range ncols).flatMap fun _ =>
              [(writeDataBlock ncols bytes gs st).plain_count, 0]) ++ [0])
           else []) ∧
    (writeFinalMark ncols wfm (writeDataBlock ncols bytes gs st)).marks.length =
        st.marks.length + gs.length * (2 * ncols + 1) +
          (if wfm then 2 * ncols + 1 else 0) := by
  have hdw : (writeDataBlock ncols bytes gs st).data_written = true := by
    rw [writeDataBlock_eq]
    cases gs with
    | nil => exact absurd rfl hne
    | cons g rest => simp
  have hmarks : (writeDataBlock ncols bytes gs st).marks =
      st.marks ++ blockMarkWords ncols bytes gs st.plain_count := by
    rw [writeDataBlock_eq]
  have hlen : (writeDataBlock ncols bytes gs st).marks.length =
      st.marks.length + gs.length * (2 * ncols + 1) := by
    rw [hmarks, List.length_append, blockMarkWords_length]
  have hfinlen : (((List.range ncols).flatMap fun _ =>
      ([(writeDataBlock ncols bytes gs st).plain_count, 0] : List Nat)) ++ [0]).length =
      2 * ncols + 1 := by
    rw [List.length_append,
      length_flatMap_pairs (fun _ => (writeDataBlock ncols bytes gs st).plain_count)]
    simp
  cases wfm with
  | false =>
    refine ⟨hmarks, hlen, ?_, ?_⟩
    · rw [writeFinalMark]; simp
    · rw [writeFinalMark]; simp [hlen]
  | true =>
    rw [writeFinalMark_eq_of_data ncols _ hdw]
    refine ⟨hmarks, hlen, by simp, ?_⟩
    simp only [List.length_append]
    rw [← List.length_append, hfinlen] at *
    simp [hlen, hfinlen]

theorem writeDataBlock_mark_records_witness :
    (([⟨0, 3, 0, true, true⟩] : List Granule) ≠ []) ∧
    ((writeDataBlock 2 (fun _ _ => 1) [⟨0, 3, 0, true, true⟩] ⟨0, [], false⟩).marks =
        [] ++ blockMarkWords 2 (fun _ _ => 1) [⟨0, 3, 0, true, true⟩] 0 ∧
      (writeDataBlock 2 (fun _ _ => 1) [⟨0, 3, 0, true, true⟩] ⟨0, [], false⟩).marks.length =
        ([] : List Nat).length + ([⟨0, 3, 0, true, true⟩] : List Granule).length * (2 * 2 + 1) ∧
      (writeFinalMark 2 true
          (writeDataBlock 2 (fun _ _ => 1) [⟨0, 3, 0, true, true⟩] ⟨0, [], false⟩)).marks =
        (writeDataBlock 2 (fun _ _ => 1) [⟨0, 3, 0, true, true⟩] ⟨0, [], false⟩).marks ++
          (if true then
            (((List.range 2).flatMap fun _ =>
              [(writeDataBlock 2 (fun _ _ => 1) [⟨0, 3, 0, true, true⟩]
                  ⟨0, [], false⟩).plain_count, 0]) ++ [0])
           else []) ∧
      (writeFinalMark 2 true
          (writeDataBlock 2 (fun _ _ => 1) [⟨0, 3, 0, true, true⟩] ⟨0, [], false⟩)).marks.length =
        ([] : List Nat).length + ([⟨0, 3, 0, true, true⟩] : List Granule).length * (2 * 2 + 1) +
          (if true then 2 * 2 + 1 else 0)) :=
  ⟨by decide,
    writeDataBlock_mark_records 2 (fun _ _ => 1) true [⟨0, 3, 0, true, true⟩] ⟨0, [], false⟩
      (by decide)⟩

/-! ## C10: the synthetic final mark requires written data -/

/-- C10.  The `data_written` flag becomes set exactly when a granule passes
through `writeDataBlock`; consequently a writer configured with a final
mark to which zero granules were ever flushed emits no synthetic mark words
at all during finalization. -/
theorem finalMark_only_after_data (ncols : Nat) (bytes : Nat → Nat → Nat) :
    (∀ (gs : List Granule) (st : OutState),
      (writeDataBlock ncols bytes gs st).data_written = (st.data_written || !gs.isEmpty)) ∧
    (∀ (plain0 : Nat) (marks0 : List Nat),
      (writeFinalMark ncols true
        (writeDataBlock ncols bytes [] ⟨plain0, marks0, false⟩)).marks = marks0) := by
  constructor
  · intro gs st
    rw [writeDataBlock_eq]
  · intro plain0 marks0
    have h0 : writeDataBlock ncols bytes [] ⟨plain0, marks0, false⟩ =
        ⟨plain0, marks0, false⟩ := rfl
    rw [h0, writeFinalMark_skip]
    rfl

/-! ## C7: determinism of checksum computation -/

theorem checksum_fold_split (H : Nat × Nat → Nat × Nat → Nat × Nat) :
    ∀ (l : List HashState) (a : Nat) (s : Nat × Nat),
      l.foldl (fun (acc : Nat × (Nat × Nat)) x => (acc.1 + x.count, H x.hash acc.2)) (a, s) =
        (a + (l.map HashState.count).sum,
          (l.map HashState.hash).foldl (fun seed h => H h seed) s) := by
  intro l
  induction l with
  | nil => intro a s; simp
  | cons x rest ih =>
    intro a s
    rw [List.foldl_cons, ih]
    simp [Nat.add_assoc]

/-- C7.  Checksum computation is a pure function of the hashing states:
running `addToChecksums` twice on identical input yields identical
`file_size`, `file_hash`, `uncompressed_size` and `uncompressed_hash`
entries for the data file and the marks file, and the combined uncompressed
hash of the data file is obtained by folding each compressed stream's
128-bit hash into a running hash seeded by the previous result, in
stream-map iteration order, from seed zero (the map iteration order is
modelled as the schema-determined insertion order, which is fixed for a
given schema). -/
theorem addToChecksums_deterministic (H : Nat × Nat → Nat × Nat → Nat × Nat)
    (w w' : WriterHashes) (hin : w = w') :
    addToChecksums H w = addToChecksums H w' ∧
    (addToChecksums H w).1.uncompressed_hash = specFoldHash H (w.streams.map HashState.hash) ∧
    (addToChecksums H w).1.uncompressed_size = (w.streams.map HashState.count).sum ∧
    (addToChecksums H w).1.file_size = w.plain.count ∧
    (addToChecksums H w).1.file_hash = w.plain.hash ∧
    (addToChecksums H w).2.file_size = w.marks_file.count ∧
    (addToChecksums H w).2.file_hash = w.marks_file.hash := by
  subst hin
  have hsplit := checksum_fold_split H w.streams 0 (0, 0)
  refine ⟨rfl, ?_, ?_, ?_, ?_, ?_, ?_⟩
  · simp only [addToChecksums, specFoldHash]
    rw [hsplit]
  · simp only [addToChecksums]
    rw [hsplit]
    simp
  · rfl
  · rfl
  · simp only [addToChecksums]
    by_cases h : w.marks_compressed <;> simp [h]
  · simp only [addToChecksums]
    by_cases h : w.marks_compressed <;> simp [h]

theorem addToChecksums_deterministic_witness :
    (WriterHashes.mk [⟨1, (2, 3)⟩] ⟨4, (5, 6)⟩ true ⟨7, (8, 9)⟩ ⟨10, (11, 12)⟩ =
      WriterHashes.mk [⟨1, (2, 3)⟩] ⟨4, (5, 6)⟩ true ⟨7, (8, 9)⟩ ⟨10, (11, 12)⟩) ∧
    (addToChecksums (fun p q => (p.1 + q.1, p.2 + q.2))
        (WriterHashes.mk [⟨1, (2, 3)⟩] ⟨4, (5, 6)⟩ true ⟨7, (8, 9)⟩ ⟨10, (11, 12)⟩) =
      addToChecksums (fun p q => (p.1 + q.1, p.2 + q.2))
        (WriterHashes.mk [⟨1, (2, 3)⟩] ⟨4, (5, 6)⟩ true ⟨7, (8, 9)⟩ ⟨10, (11, 12)⟩) ∧
      (addToChecksums (fun p q => (p.1 + q.1, p.2 + q.2))
        (WriterHashes.mk [⟨1, (2, 3)⟩] ⟨4, (5, 6)⟩ true ⟨7, (8, 9)⟩
          ⟨10, (11, 12)⟩)).1.uncompressed_hash =
        specFoldHash (fun p q => (p.1 + q.1, p.2 + q.2))
          (([⟨1, (2, 3)⟩] : List HashState).map HashState.hash) ∧
      (addToChecksums (fun p q => (p.1 + q.1, p.2 + q.2))
        (WriterHashes.mk [⟨1, (2, 3)⟩] ⟨4, (5, 6)⟩ true ⟨7, (8, 9)⟩
          ⟨10, (11, 12)⟩)).1.uncompressed_size =
        (([⟨1, (2, 3)⟩] : List HashState).map HashState.count).sum ∧
      (addToChecksums (fun p q => (p.1 + q.1, p.2 + q.2))
        (WriterHashes.mk [⟨1, (2, 3)⟩] ⟨4, (5, 6)⟩ true ⟨7, (8, 9)⟩
          ⟨10, (11, 12)⟩)).1.file_size = (HashState.mk 4 (5, 6)).count ∧
      (addToChecksums (fun p q => (p.1 + q.1, p.2 + q.2))
        (WriterHashes.mk [⟨1, (2, 3)⟩] ⟨4, (5, 6)⟩ true ⟨7, (8, 9)⟩
          ⟨10, (11, 12)⟩)).1.file_hash = (HashState.mk 4 (5, 6)).hash ∧
      (addToChecksums (fun p q => (p.1 + q.1, p.2 + q.2))
        (WriterHashes.mk [⟨1, (2, 3)⟩] ⟨4, (5, 6)⟩ true ⟨7, (8, 9)⟩
          ⟨10, (11, 12)⟩)).2.file_size = (HashState.mk 10 (11, 12)).count ∧
      (addToChecksums (fun p q => (p.1 + q.1, p.2 + q.2))
        (WriterHashes.mk [⟨1, (2, 3)⟩] ⟨4, (5, 6)⟩ true ⟨7, (8, 9)⟩
          ⟨10, (11, 12)⟩)).2.file_hash = (HashState.mk 10 (11, 12)).hash) :=
  ⟨rfl, addToChecksums_deterministic (fun p q => (p.1 + q.1, p.2 + q.2))
    (WriterHashes.mk [⟨1, (2, 3)⟩] ⟨4, (5, 6)⟩ true ⟨7, (8, 9)⟩ ⟨10, (11, 12)⟩)
    (WriterHashes.mk [⟨1, (2, 3)⟩] ⟨4, (5, 6)⟩ true ⟨7, (8, 9)⟩ ⟨10, (11, 12)⟩) rfl⟩

/-! ## C8: finalization order and failure behaviour -/

theorem runFinalize_split (fails : FinTarget → Bool) :
    ∀ l : List FinTarget,
      runFinalize fails l =
        (l.takeWhile (fun t => !fails t), (l.dropWhile (fun t => !fails t)).head?) := by
  intro l
  induction l with
  | nil => rfl
  | cons t rest ih =>
    by_cases h : fails t = true
    · simp [runFinalize, h, List.takeWhile_cons, List.dropWhile_cons]
    · have h' : fails t = false := by
        cases hfails : fails t
        · rfl
        · exact absurd hfails h
      simp [runFinalize, h', List.takeWhile_cons, List.dropWhile_cons, ih]

theorem runFinalize_no_failure (l : List FinTarget) :
    runFinalize (fun _ => false) l = (l, none) := by
  induction l with
  | nil => rfl
  | cons t rest ih => simp [runFinalize, ih]

theorem streamPart_mem (n : Nat) (t : FinTarget) :
    t ∈ ((List.range n).flatMap fun i =>
        [FinTarget.streamHashingBuf i, FinTarget.streamCompressedBuf i]) ↔
      ∃ i, i < n ∧ (t = FinTarget.streamHashingBuf i ∨ t = FinTarget.streamCompressedBuf i) := by
  simp only [List.mem_flatMap, List.mem_range, List.mem_cons, List.mem_singleton,
    List.not_mem_nil, or_false]

theorem streamPart_nodup : ∀ n : Nat,
    ((List.range n).flatMap fun i =>
      [FinTarget.streamHashingBuf i, FinTarget.streamCompressedBuf i]).Nodup := by
  intro n
  induction n with
  | zero => simp
  | succ n ih =>
    rw [List.range_succ, List.flatMap_append]
    refine List.Nodup.append ih (by simp) ?_
    intro t ht ht'
    rcases (streamPart_mem n t).mp ht with ⟨i, hi, hcase⟩
    simp only [List.flatMap_cons, List.flatMap_nil, List.append_nil, List.mem_cons,
      List.mem_singleton, List.not_mem_nil, or_false] at ht'
    rcases hcase with h1 | h1 <;> rcases ht' with h2 | h2 <;>
      rw [h1] at h2 <;> simp at h2 <;> omega

theorem finalizeSequence_nodup (n : Nat) (mc : Bool) : (finalizeSequence n mc).Nodup := by
  have htail : (([FinTarget.plainHashing, FinTarget.plainFileNext] ++
      ((if mc then [FinTarget.marksSourceHashing, FinTarget.marksCompressor] else []) ++
      [FinTarget.marksFileHashing])) : List FinTarget).Nodup := by
    cases mc <;> decide
  rw [finalizeSequence]
  simp only [List.append_assoc]
  refine List.Nodup.append (streamPart_nodup n) htail ?_
  intro t ht ht'
  rcases (streamPart_mem n t).mp ht with ⟨i, _, hcase⟩
  cases mc <;> rcases hcase with h1 | h1 <;> subst h1 <;> simp at ht'

/-- C8 counterexample.  With one compressed stream and compressed marks, a
failure while finalizing the stream's hashing buffer is reported as the
first failure, yet the marks-file hashing wrapper — a remaining owned
stream of the sequence — is not finalized, refuting the claim that all
remaining streams are still finalized after a failure. -/
theorem finalize_abandons_rest_on_failure :
    FinTarget.marksFileHashing ∈ finalizeSequence 1 true ∧
    (runFinalize (fun t => decide (t = FinTarget.streamHashingBuf 0))
        (finalizeSequence 1 true)).2 = some (FinTarget.streamHashingBuf 0) ∧
    FinTarget.marksFileHashing ∉
      (runFinalize (fun t => decide (t = FinTarget.streamHashingBuf 0))
        (finalizeSequence 1 true)).1 := by
  decide

/-- C8 (amended).  During finalization the owned streams are sealed at most
once each, in the fixed order: each compressed stream's hashing buffer then
its compressing buffer, then the plain hashing output, then the plain
file's flush, then (when marks are compressed) the marks source hashing
wrapper and the marks compressor, and finally the marks outer hashing
wrapper.  On a failure-free run every stream of the sequence is finalized
exactly once; if one finalize fails, the failure is reported and the
remaining streams are not finalized (the exception propagates
immediately). -/
theorem finalize_order (n : Nat) (mc : Bool) (fails : FinTarget → Bool) :
    runFinalize fails (finalizeSequence n mc) =
      ((finalizeSequence n mc).takeWhile (fun t => !fails t),
        ((finalizeSequence n mc).dropWhile (fun t => !fails t)).head?) ∧
    (finalizeSequence n mc).Nodup ∧
    runFinalize (fun _ => false) (finalizeSequence n mc) = (finalizeSequence n mc, none) :=
  ⟨runFinalize_split fails (finalizeSequence n mc), finalizeSequence_nodup n mc,
    runFinalize_no_failure (finalizeSequence n mc)⟩

/-! ## C3: the granule planner covers the buffer -/

theorem granulesLoop_chain (plan : List Nat) (R : Nat) (last : Bool) :
    ∀ (fuel cr cm : Nat) (gs : List Granule),
      granulesLoop plan R last fuel cr cm = Except.ok gs →
      GranChain plan R cr cm gs := by
  intro fuel
  induction fuel with
  | zero =>
    intro cr cm gs h
    by_cases hcr : cr < R
    · rw [granulesLoop] at h
      simp [hcr] at h
    · rw [granulesLoop] at h
      simp only [hcr, if_false] at h
      obtain rfl : ([] : List Granule) = gs := by
        simpa using h
      rw [GranChain]
      omega
  | succ fuel ih =>
    intro cr cm gs h
    by_cases hcr : cr < R
    · rw [granulesLoop] at h
      simp only [hcr, if_true] at h
      by_cases herr : R - cr < getMarkRows plan cm ∧ last = false
      · simp [herr] at h
      · simp only [herr, if_false] at h
        cases hrec : granulesLoop plan R last fuel
            (cr + min (R - cr) (getMarkRows plan cm)) (cm + 1) with
        | error e => rw [hrec] at h; simp at h
        | ok rest =>
          rw [hrec] at h
          simp only [Except.ok.injEq] at h
          subst h
          refine ⟨hcr, rfl, rfl, rfl, rfl, rfl, ?_⟩
          exact ih (cr + min (R - cr) (getMarkRows plan cm)) (cm + 1) rest hrec
    · rw [granulesLoop] at h
      simp only [hcr, if_false] at h
      obtain rfl : ([] : List Granule) = gs := by
        simpa using h
      rw [GranChain]
      omega

theorem granChain_sum (plan : List Nat) (R : Nat) :
    ∀ (gs : List Granule) (cr cm : Nat),
      GranChain plan R cr cm gs → cr ≤ R →
      cr + (gs.map Granule.rows_to_write).sum = R := by
  intro gs
  induction gs with
  | nil =>
    intro cr cm h hle
    rw [GranChain] at h
    simp
    omega
  | cons g rest ih =>
    intro cr cm h hle
    rw [GranChain] at h
    obtain ⟨h1, _, _, _, hrw, _, hchain⟩ := h
    have hstep : cr + g.rows_to_write ≤ R := by
      rw [hrw]; omega
    have := ih (cr + g.rows_to_write) (cm + 1) hchain hstep
    simp only [List.map_cons, List.sum_cons]
    omega

theorem granChain_dropLast_complete (plan : List Nat) (R : Nat) :
    ∀ (gs : List Granule) (cr cm : Nat),
      GranChain plan R cr cm gs → ∀ g ∈ gs.dropLast, g.is_complete = true := by
  intro gs
  induction gs with
  | nil => intro cr cm _ g hg; simp at hg
  | cons g rest ih =>
    intro cr cm h g' hg'
    rw [GranChain] at h
    obtain ⟨h1, _, _, _, hrw, hic, hchain⟩ := h
    cases rest with
    | nil => simp at hg'
    | cons r rs =>
      rw [List.dropLast_cons_of_ne_nil (by simp)] at hg'
      rcases List.mem_cons.mp hg' with rfl | hg''
      · rw [GranChain] at hchain
        obtain ⟨hlt, _⟩ := hchain
        rw [hic]
        have : g'.rows_to_write < R - cr := by omega
        rw [hrw] at this
        simp only [decide_eq_true_eq]
        omega
      · exact ih (cr + g.rows_to_write) (cm + 1) hchain g' hg''

theorem granulesLoop_complete_of_not_last (plan : List Nat) (R : Nat) :
    ∀ (fuel cr cm : Nat) (gs : List Granule),
      granulesLoop plan R false fuel cr cm = Except.ok gs →
      ∀ g ∈ gs, g.is_complete = true := by
  intro fuel
  induction fuel with
  | zero =>
    intro cr cm gs h
    by_cases hcr : cr < R
    · rw [granulesLoop] at h; simp [hcr] at h
    · rw [granulesLoop] at h
      simp only [hcr, if_false] at h
      obtain rfl : ([] : List Granule) = gs := by simpa using h
      simp
  | succ fuel ih =>
    intro cr cm gs h
    by_cases hcr : cr < R
    · rw [granulesLoop] at h
      simp only [hcr, if_true] at h
      by_cases hlt : R - cr < getMarkRows plan cm
      · simp [hlt] at h
      · simp only [hlt, false_and, if_false] at h
        cases hrec : granulesLoop plan R false fuel
            (cr + min (R - cr) (getMarkRows plan cm)) (cm + 1) with
        | error e => rw [hrec] at h; simp at h
        | ok rest =>
          rw [hrec] at h
          simp only [Except.ok.injEq] at h
          subst h
          intro g' hg'
          rcases List.mem_cons.mp hg' with rfl | hg''
          · have hge : getMarkRows plan cm ≤ R - cr := by omega
            simp [hge]
          · exact ih (cr + min (R - cr) (getMarkRows plan cm)) (cm + 1) rest hrec g' hg''
    · rw [granulesLoop] at h
      simp only [hcr, if_false] at h
      obtain rfl : ([] : List Granule) = gs := by simpa using h
      simp

/-- C3.  Whenever the planner succeeds on a buffer of `R > 0` rows, it
returns a non-empty ordered sequence of granules exactly covering
`[0, R)`: each granule starts where the previous ended (`GranChain` from
row `0` and mark `M`), takes `min (rows remaining) (rowsInMark M)` rows,
has `is_complete = (rows remaining ≥ rowsInMark M)`, carries a mark number
advancing by exactly one per granule, every granule but the last is
complete, and on a non-final flush every granule is complete (so only the
last granule of a final flush can be incomplete). -/
theorem getGranulesToWrite_covering (plan : List Nat) (R M : Nat) (last : Bool)
    (gs : List Granule) (hR : 0 < R)
    (h : getGranulesToWrite plan R M last = Except.ok gs) :
    gs ≠ [] ∧
    GranChain plan R 0 M gs ∧
    (gs.map Granule.rows_to_write).sum = R ∧
    (∀ g ∈ gs.dropLast, g.is_complete = true) ∧
    (last = false → ∀ g ∈ gs, g.is_complete = true) := by
  rw [getGranulesToWrite] at h
  by_cases hM : plan.length ≤ M
  · simp [hM] at h
  · simp only [hM, if_false] at h
    have hchain := granulesLoop_chain plan R last R 0 M gs h
    have hsum := granChain_sum plan R gs 0 M hchain (by omega)
    refine ⟨?_, hchain, by omega, granChain_dropLast_complete plan R gs 0 M hchain, ?_⟩
    · intro hnil
      subst hnil
      rw [GranChain] at hchain
      omega
    · intro hlast
      subst hlast
      exact granulesLoop_complete_of_not_last plan R R 0 M gs h

theorem getGranulesToWrite_covering_witness :
    0 < 5 ∧
    (([⟨0, 2, 0, true, true⟩, ⟨2, 3, 1, true, true⟩] : List Granule) ≠ [] ∧
      GranChain [2, 3] 5 0 0 [⟨0, 2, 0, true, true⟩, ⟨2, 3, 1, true, true⟩] ∧
      (([⟨0, 2, 0, true, true⟩, ⟨2, 3, 1, true, true⟩] : List Granule).map
        Granule.rows_to_write).sum = 5 ∧
      (∀ g ∈ ([⟨0, 2, 0, true, true⟩, ⟨2, 3, 1, true, true⟩] : List Granule).dropLast,
        g.is_complete = true) ∧
      ((false : Bool) = false →
        ∀ g ∈ ([⟨0, 2, 0, true, true⟩, ⟨2, 3, 1, true, true⟩] : List Granule),
          g.is_complete = true)) :=
  ⟨by decide,
    getGranulesToWrite_covering [2, 3] 5 0 false
      [⟨0, 2, 0, true, true⟩, ⟨2, 3, 1, true, true⟩] (by decide) (by rfl)⟩

/-! ## C4: the planner's failure condition -/

theorem getMarkRows_of_drop (plan : List Nat) (cm m : Nat) (rest : List Nat)
    (h : plan.drop cm = m :: rest) : getMarkRows plan cm = m := by
  have h0 : plan[cm]? = some m := by
    have hd := List.getElem?_drop plan cm 0
    rw [h] at hd
    simpa using hd.symm
  simp [getMarkRows, List.getD_eq_getElem?_getD, h0]

theorem drop_succ_of_drop (plan : List Nat) (cm m : Nat) (rest : List Nat)
    (h : plan.drop cm = m :: rest) : plan.drop (cm + 1) = rest := by
  have hdd : plan.drop (cm + 1) = (plan.drop cm).drop 1 := by
    rw [List.drop_drop, Nat.add_comm]
  rw [hdd, h]
  rfl

theorem hasShortfall_zero (ms : List Nat) : hasShortfall ms 0 = false := by
  cases ms <;> rfl

theorem hasShortfall_cons_succ (m : Nat) (rest : List Nat) (r : Nat) :
    hasShortfall (m :: rest) (r + 1) =
      if r + 1 < m then true else hasShortfall rest (r + 1 - m) := rfl

theorem mem_of_drop_head (plan : List Nat) (cm m : Nat) (rest : List Nat)
    (h : plan.drop cm = m :: rest) : m ∈ plan := by
  have : m ∈ plan.drop cm := by rw [h]; exact List.mem_cons_self m rest
  exact List.mem_of_mem_drop this

theorem granulesLoop_stop (plan : List Nat) (R : Nat) (last : Bool)
    (fuel cr cm : Nat) (hcr : ¬ cr < R) :
    granulesLoop plan R last fuel cr cm = Except.ok [] := by
  rw [granulesLoop.eq_def]
  simp [hcr]

theorem granulesLoop_ok_of_last (plan : List Nat) (R : Nat)
    (hpos : ∀ x ∈ plan, 0 < x) :
    ∀ (ms : List Nat) (fuel cr cm : Nat), plan.drop cm = ms →
      R - cr ≤ ms.sum → R - cr ≤ fuel →
      isError (granulesLoop plan R true fuel cr cm) = false := by
  intro ms
  induction ms with
  | nil =>
    intro fuel cr cm hdrop hsum hfuel
    have hcr : ¬ cr < R := by simp at hsum; omega
    rw [granulesLoop_stop plan R true fuel cr cm hcr]
    rfl
  | cons m rest ih =>
    intro fuel cr cm hdrop hsum hfuel
    by_cases hcr : cr < R
    · have hm := getMarkRows_of_drop plan cm m rest hdrop
      have hmpos : 0 < m := hpos m (mem_of_drop_head plan cm m rest hdrop)
      obtain ⟨f, rfl⟩ : ∃ f, fuel = f + 1 := ⟨fuel - 1, by omega⟩
      rw [granulesLoop.eq_def]
      simp only [hcr, if_true, hm]
      have hcond : ¬ (R - cr < m ∧ (true : Bool) = false) := by
        rintro ⟨-, hc⟩
        exact absurd hc (by simp)
      rw [if_neg hcond]
      have hrec := ih f (cr + min (R - cr) m) (cm + 1)
        (drop_succ_of_drop plan cm m rest hdrop) (by simp at hsum ⊢; omega)
        (by omega)
      cases hres : granulesLoop plan R true f (cr + min (R - cr) m) (cm + 1) with
      | error e => rw [hres] at hrec; simp [isError] at hrec
      | ok rest' => simp only [hres]; rfl
    · rw [granulesLoop_stop plan R true fuel cr cm hcr]
      rfl

theorem granulesLoop_error_iff_shortfall (plan : List Nat) (R : Nat)
    (hpos : ∀ x ∈ plan, 0 < x) :
    ∀ (ms : List Nat) (fuel cr cm : Nat), plan.drop cm = ms →
      R - cr ≤ ms.sum → R - cr ≤ fuel →
      isError (granulesLoop plan R false fuel cr cm) = hasShortfall ms (R - cr) := by
  intro ms
  induction ms with
  | nil =>
    intro fuel cr cm hdrop hsum hfuel
    have hcr : ¬ cr < R := by simp at hsum; omega
    have hRcr : R - cr = 0 := by omega
    rw [granulesLoop_stop plan R false fuel cr cm hcr, hRcr, hasShortfall_zero]
    rfl
  | cons m rest ih =>
    intro fuel cr cm hdrop hsum hfuel
    by_cases hcr : cr < R
    · have hm := getMarkRows_of_drop plan cm m rest hdrop
      have hmpos : 0 < m := hpos m (mem_of_drop_head plan cm m rest hdrop)
      obtain ⟨f, rfl⟩ : ∃ f, fuel = f + 1 := ⟨fuel - 1, by omega⟩
      have hsplit : R - cr = (R - cr - 1) + 1 := by omega
      rw [granulesLoop.eq_def]
      simp only [hcr, if_true, hm]
      by_cases hlt : R - cr < m
      · have hcond : (R - cr < m ∧ True) := ⟨hlt, trivial⟩
        rw [if_pos hcond, hsplit, hasShortfall_cons_succ]
        have hlt' : R - cr - 1 + 1 < m := by omega
        rw [if_pos hlt']
        rfl
      · have hcond : ¬ (R - cr < m ∧ True) := by
          rintro ⟨hc, -⟩
          exact hlt hc
        rw [if_neg hcond]
        have hrec := ih f (cr + min (R - cr) m) (cm + 1)
          (drop_succ_of_drop plan cm m rest hdrop) (by simp at hsum ⊢; omega)
          (by omega)
        have hnlt : ¬ (R - cr - 1 + 1 < m) := by omega
        have hsf : hasShortfall (m :: rest) (R - cr) = hasShortfall rest (R - cr - m) := by
          rw [hsplit, hasShortfall_cons_succ, if_neg hnlt]
        rw [hsf]
        have harg : R - (cr + min (R - cr) m) = R - cr - m := by omega
        rw [harg] at hrec
        cases hres : granulesLoop plan R false f (cr + min (R - cr) m) (cm + 1) with
        | error e => rw [hres] at hrec; simpa [isError] using hrec
        | ok rest' => rw [hres] at hrec; simpa [isError] using hrec
    · have hcr' : ¬ cr < R := hcr
      have hRcr : R - cr = 0 := by omega
      rw [granulesLoop_stop plan R false fuel cr cm hcr', hRcr, hasShortfall_zero]
      rfl

/-- C4.  Under the writer's invariants (positive mark sizes, buffered rows
not exceeding the plan's remaining capacity), the granule planner fails
with the fatal `LOGICAL_ERROR` exception if and only if either the current
mark cursor is at or past the end of the granularity plan, or this is a
non-final flush and at some step of the walk the rows remaining are fewer
than the rows the current mark requires; in every other case it returns
normally. -/
theorem getGranulesToWrite_error_iff (plan : List Nat) (R M : Nat) (last : Bool)
    (hpos : ∀ x ∈ plan, 0 < x) (hcap : R ≤ (plan.drop M).sum) :
    isError (getGranulesToWrite plan R M last) = true ↔
      (plan.length ≤ M ∨ (last = false ∧ hasShortfall (plan.drop M) R = true)) := by
  by_cases hM : plan.length ≤ M
  · rw [getGranulesToWrite]
    simp [hM, isError]
  · rw [getGranulesToWrite]
    simp only [hM, if_false]
    cases last with
    | true =>
      rw [granulesLoop_ok_of_last plan R hpos (plan.drop M) R 0 M rfl (by omega) (by omega)]
      simp [hM]
    | false =>
      rw [granulesLoop_error_iff_shortfall plan R hpos (plan.drop M) R 0 M rfl
        (by omega) (by omega)]
      simp only [Nat.sub_zero]
      simp [hM]

theorem getGranulesToWrite_error_iff_witness :
    (∀ x ∈ ([2, 3] : List Nat), 0 < x) ∧
    (5 ≤ (([2, 3] : List Nat).drop 0).sum) ∧
    (isError (getGranulesToWrite [2, 3] 5 0 false) = true ↔
      (([2, 3] : List Nat).length ≤ 0 ∨
        ((false : Bool) = false ∧ hasShortfall (([2, 3] : List Nat).drop 0) 5 = true))) :=
  ⟨by decide, by decide,
    getGranulesToWrite_error_iff [2, 3] 5 0 false (by decide) (by decide)⟩

/-! ## C5: the final-flush correction of the plan -/

theorem granChain_stuck (plan : List Nat) (R : Nat) :
    ∀ (gs : List Granule) (cr cm : Nat),
      GranChain plan R cr cm gs → (∀ k, cm ≤ k → getMarkRows plan k = 0) →
      cr < R → False := by
  intro gs
  induction gs with
  | nil =>
    intro cr cm h h0 hcr
    rw [GranChain] at h
    omega
  | cons g rest ih =>
    intro cr cm h h0 hcr
    rw [GranChain] at h
    obtain ⟨-, -, -, -, hrw, -, hchain⟩ := h
    have hg0 : g.rows_to_write = 0 := by
      rw [hrw, h0 cm (Nat.le_refl cm)]
      simp
    rw [hg0, Nat.add_zero] at hchain
    exact ih cr (cm + 1) hchain (fun k hk => h0 k (by omega)) hcr

theorem getMarkRows_out_of_range (plan : List Nat) (k : Nat)
    (h : plan.length ≤ k) : getMarkRows plan k = 0 := by
  simp [getMarkRows, List.getD_eq_getElem?_getD, List.getElem?_eq_none h]

theorem drop_at_last (plan : List Nat) (cur : Nat) (hcur : cur + 1 = plan.length) :
    plan.drop cur = [getMarkRows plan cur] := by
  have hlt : cur < plan.length := by omega
  have h1 : plan.drop cur = plan[cur] :: plan.drop (cur + 1) :=
    List.drop_eq_getElem_cons hlt
  have h2 : plan.drop (cur + 1) = [] := by
    apply List.drop_eq_nil_of_le
    omega
  have h3 : getMarkRows plan cur = plan[cur] := by
    simp [getMarkRows, List.getD_eq_getElem?_getD, List.getElem?_eq_getElem hlt]
  rw [h1, h2, h3]

theorem plan_sum_split (plan : List Nat) (cur : Nat) (hcur : cur + 1 = plan.length) :
    plan.sum = (plan.take cur).sum + getMarkRows plan cur := by
  conv_lhs => rw [← List.take_append_drop cur plan]
  rw [List.sum_append, drop_at_last plan cur hcur]
  simp

theorem dropLast_eq_take_cur (plan : List Nat) (cur : Nat)
    (hcur : cur + 1 = plan.length) : plan.dropLast = plan.take cur := by
  rw [List.dropLast_eq_take]
  congr 1
  omega

/-- C5.  On the final flush (non-empty buffer of `buf` rows, cursor on the
last mark of the plan), the granule sequence computed with
`is_final_flush = true` is a single granule of exactly `buf` rows, which is
incomplete if and only if `buf` is short of the current mark; the last plan
entry is popped and re-appended with the granule's actual `rows_to_write`
exactly when that granule is incomplete, and in either case the corrected
plan sums to the rows already flushed plus `buf` — never claiming more rows
than were actually serialized. -/
theorem finalFlush_correction (plan : List Nat) (cur buf : Nat) (gs : List Granule)
    (hbuf : 0 < buf) (hcur : cur + 1 = plan.length)
    (h : getGranulesToWrite plan buf cur true = Except.ok gs) :
    ∃ g, gs = [g] ∧ g.rows_to_write = buf ∧
      (g.is_complete = false ↔ buf < getMarkRows plan cur) ∧
      finalFlushPlan plan cur buf =
        Except.ok (if g.is_complete then plan
          else appendMark (popMark plan) g.rows_to_write) ∧
      (∀ p, finalFlushPlan plan cur buf = Except.ok p →
        p.sum = (plan.take cur).sum + buf) := by
  have hM : ¬ plan.length ≤ cur := by omega
  have hloop : granulesLoop plan buf true buf 0 cur = Except.ok gs := by
    rw [getGranulesToWrite] at h
    rwa [if_neg hM] at h
  have hchain := granulesLoop_chain plan buf true buf 0 cur gs hloop
  have hzero : ∀ k, cur + 1 ≤ k → getMarkRows plan k = 0 := fun k hk =>
    getMarkRows_out_of_range plan k (by omega)
  cases gs with
  | nil =>
    rw [GranChain] at hchain
    omega
  | cons g rest =>
    rw [GranChain] at hchain
    obtain ⟨h1, hst, hmk, hms, hrw, hic, hchain'⟩ := hchain
    simp only [Nat.sub_zero] at hrw hic
    have hgbuf : g.rows_to_write = buf := by
      rcases Nat.lt_or_ge buf (getMarkRows plan cur) with hlt | hge
      · rw [hrw]
        omega
      · -- the current mark fits in the buffer; if it were strictly smaller
        -- the chain would get stuck on the zero out-of-range marks
        have hnlt : ¬ getMarkRows plan cur < buf := by
          intro hElt
          have hrwE : g.rows_to_write = getMarkRows plan cur := by rw [hrw]; omega
          rw [hrwE] at hchain'
          exact granChain_stuck plan buf rest (0 + getMarkRows plan cur) (cur + 1)
            hchain' (fun k hk => hzero k hk) (by omega)
        rw [hrw]
        omega
    have hrest : rest = [] := by
      cases rest with
      | nil => rfl
      | cons r rs =>
        rw [GranChain] at hchain'
        obtain ⟨hlt', -⟩ := hchain'
        rw [hgbuf] at hlt'
        omega
    subst hrest
    refine ⟨g, rfl, hgbuf, ?_, ?_, ?_⟩
    · rw [hic]
      simp only [decide_eq_false_iff_not, not_le]
    · rw [finalFlushPlan, if_pos (by omega), h]
      simp only [List.getLast?_singleton]
      cases hc : g.is_complete <;> simp [hc]
    · intro p hp
      rw [finalFlushPlan, if_pos (by omega), h] at hp
      simp only [List.getLast?_singleton] at hp
      have hsum := plan_sum_split plan cur hcur
      cases hc : g.is_complete with
      | false =>
        rw [hc] at hp
        simp only [if_pos, Except.ok.injEq] at hp
        subst hp
        rw [appendMark, popMark, dropLast_eq_take_cur plan cur hcur]
        rw [List.sum_append, hgbuf]
        simp
      | true =>
        rw [hc] at hp
        have hp' : Except.ok (ε := String) plan = Except.ok p := by
          simpa using hp
        have hpp : plan = p := by
          injection hp'
        subst hpp
        have hcomplete : getMarkRows plan cur ≤ buf := by
          have h2 := hic
          rw [hc] at h2
          have h3 := h2.symm
          simp only [decide_eq_true_eq] at h3
          exact h3
        have hble : buf ≤ getMarkRows plan cur := by
          rw [← hgbuf, hrw]
          omega
        rw [hsum]
        omega

theorem finalFlush_correction_witness :
    0 < 2 ∧ (0 + 1 = ([3] : List Nat).length) ∧
    (∃ g, ([⟨0, 2, 0, true, false⟩] : List Granule) = [g] ∧ g.rows_to_write = 2 ∧
      (g.is_complete = false ↔ 2 < getMarkRows [3] 0) ∧
      finalFlushPlan [3] 0 2 =
        Except.ok (if g.is_complete then [3]
          else appendMark (popMark [3]) g.rows_to_write) ∧
      (∀ p, finalFlushPlan [3] 0 2 = Except.ok p →
        p.sum = (([3] : List Nat).take 0).sum + 2)) :=
  ⟨by decide, by decide,
    finalFlush_correction [3] 0 2 [⟨0, 2, 0, true, false⟩] (by decide) (by decide) (by rfl)⟩

/-! ## C2: closed form of one `fillIndexGranularityImpl` call -/

theorem fillTail_shift (plan : List Nat) (G m : Nat) (hG : 0 < G) (hlt : G < m) :
    fillTail (plan ++ [G]) G (m - G) = fillTail plan G m := by
  have hk : m = (m - G) + G := by omega
  have hmod : m % G = (m - G) % G := by
    conv_lhs => rw [hk]
    rw [Nat.add_mod_right]
  have hdiv : m / G = (m - G) / G + 1 := by
    conv_lhs => rw [hk]
    rw [Nat.add_div_right _ hG]
  rw [fillTail, fillTail, hmod, hdiv]
  by_cases h0 : (m - G) % G = 0
  · rw [if_pos h0, if_pos h0, List.replicate_succ]
    simp [List.append_assoc]
  · rw [if_neg h0, if_neg h0]
    by_cases hhalf : G ≤ 2 * ((m - G) % G)
    · rw [if_pos hhalf, if_pos hhalf, List.replicate_succ]
      simp [List.append_assoc]
    · rw [if_neg hhalf, if_neg hhalf]
      by_cases hq : (m - G) / G = 0
      · rw [if_pos hq]
        have hq1 : ¬ ((m - G) / G + 1 = 0) := by omega
        rw [if_neg hq1]
        have hmG : m - G < G := by
          have h2 := Nat.div_add_mod (m - G) G
          rw [hq, Nat.mul_zero, Nat.zero_add] at h2
          have h3 : (m - G) % G < G := Nat.mod_lt _ hG
          omega
        have hmodeq : (m - G) % G = m - G := Nat.mod_eq_of_lt hmG
        rw [addRowsToLastMark_append, hq, hmodeq]
        simp
      · rw [if_neg hq]
        have hq1 : ¬ ((m - G) / G + 1 = 0) := Nat.succ_ne_zero _
        rw [if_neg hq1]
        have hdpos : 0 < (m - G) / G := Nat.pos_of_ne_zero hq
        have hshift : (m - G) / G + 1 - 1 = ((m - G) / G - 1) + 1 := by
          rw [Nat.add_sub_cancel, Nat.sub_add_cancel hdpos]
        rw [hshift, List.replicate_succ]
        simp [List.append_assoc]

theorem fillLoop_char (G n off : Nat) (hG : 0 < G) (hcond : G ≤ n ∨ off ≠ 0) :
    ∀ (fuel cr : Nat) (plan : List Nat), cr < n → n - cr ≤ fuel →
      fillLoopFuel G n off fuel cr plan = fillTail plan G (n - cr) := by
  intro fuel
  induction fuel with
  | zero =>
    intro cr plan hcr hfuel
    omega
  | succ fuel ih =>
    intro cr plan hcr hfuel
    rw [fillLoopFuel]
    simp only [hcr, if_true]
    by_cases hm : n - cr < G
    · rw [if_pos ⟨hm, hcond⟩]
      have hstop : ¬ cr + G < n := by omega
      have hmod : (n - cr) % G = n - cr := Nat.mod_eq_of_lt hm
      have hdiv : (n - cr) / G = 0 := Nat.div_eq_of_lt hm
      by_cases hhalf : G ≤ (n - cr) * 2
      · rw [if_pos hhalf, fillLoop_stop G n off fuel (cr + G) _ hstop]
        rw [fillTail, if_neg (by omega), if_pos (by omega), hdiv, hmod]
        simp [appendMark]
      · rw [if_neg hhalf, fillLoop_stop G n off fuel (cr + G) _ hstop]
        rw [fillTail, if_neg (by omega), if_neg (by omega), if_pos hdiv]
    · rw [if_neg (by intro hc; exact hm hc.1)]
      by_cases hstop : cr + G < n
      · rw [ih (cr + G) (appendMark plan G) hstop (by omega)]
        have harg : n - (cr + G) = (n - cr) - G := by omega
        rw [harg, appendMark, fillTail_shift plan G (n - cr) hG (by omega)]
      · rw [fillLoop_stop G n off fuel (cr + G) _ hstop]
        have heq : n - cr = G := by omega
        rw [fillTail, heq, Nat.mod_self, if_pos rfl, Nat.div_self hG]
        simp [appendMark]

theorem fill_none (plan : List Nat) (off G n : Nat) (h : n ≤ off) :
    fillIndexGranularityImpl plan off G n = plan := by
  rw [fillIndexGranularityImpl]
  exact fillLoop_stop G n off n off plan (by omega)

theorem fill0_lt (plan : List Nat) (G n : Nat) (h1 : 0 < n) (h2 : n < G) :
    fillIndexGranularityImpl plan 0 G n = plan ++ [G] := by
  obtain ⟨f, rfl⟩ : ∃ f, n = f + 1 := ⟨n - 1, by omega⟩
  have h0 : 0 < f + 1 := by omega
  rw [fillIndexGranularityImpl, fillLoopFuel]
  simp only [h0, if_true]
  have hcond : ¬ ((f + 1 - 0 < G) ∧ (G ≤ f + 1 ∨ (0:Nat) ≠ 0)) := by
    rintro ⟨-, hor | hor⟩
    · omega
    · exact hor rfl
  rw [if_neg hcond]
  exact fillLoop_stop G (f + 1) 0 f (0 + G) _ (by omega)

theorem fill0_ge (plan : List Nat) (G n : Nat) (hG : 0 < G) (hgn : G ≤ n) :
    fillIndexGranularityImpl plan 0 G n = fillTail plan G n := by
  rw [fillIndexGranularityImpl]
  have := fillLoop_char G n 0 hG (Or.inl hgn) n 0 plan (by omega) (by omega)
  simpa using this

theorem fill_off (plan : List Nat) (off G n : Nat) (hG : 0 < G) (hoff : off ≠ 0)
    (hlt : off < n) :
    fillIndexGranularityImpl plan off G n = fillTail plan G (n - off) := by
  rw [fillIndexGranularityImpl]
  exact fillLoop_char G n off hG (Or.inr hoff) n off plan hlt (by omega)

/-! ## C2: exact flushes through the granule planner -/

theorem granulesLoop_exact (plan : List Nat) (R : Nat) :
    ∀ (tail : List Nat) (fuel cr cm : Nat), plan.drop cm = tail →
      tail.sum = R - cr → cr ≤ R → (∀ x ∈ tail, 0 < x) → R - cr ≤ fuel →
      ∃ gs, granulesLoop plan R false fuel cr cm = Except.ok gs ∧
        gs.length = tail.length := by
  intro tail
  induction tail with
  | nil =>
    intro fuel cr cm hdrop hsum hle hpos hfuel
    simp only [List.sum_nil] at hsum
    refine ⟨[], granulesLoop_stop plan R false fuel cr cm (by omega), rfl⟩
  | cons m rest ih =>
    intro fuel cr cm hdrop hsum hle hpos hfuel
    have hm := getMarkRows_of_drop plan cm m rest hdrop
    have hmpos : 0 < m := hpos m (List.mem_cons_self m rest)
    simp only [List.sum_cons] at hsum
    have hcr : cr < R := by omega
    obtain ⟨f, rfl⟩ : ∃ f, fuel = f + 1 := ⟨fuel - 1, by omega⟩
    rw [granulesLoop.eq_def]
    simp only [hcr, if_true, hm]
    have hcond : ¬ (R - cr < m ∧ True) := by
      rintro ⟨hc, -⟩
      omega
    rw [if_neg hcond]
    have hmin : min (R - cr) m = m := by omega
    obtain ⟨gs', hok, hlen⟩ := ih f (cr + min (R - cr) m) (cm + 1)
      (drop_succ_of_drop plan cm m rest hdrop) (by omega) (by omega)
      (fun x hx => hpos x (List.mem_cons_of_mem m hx)) (by omega)
    rw [hok]
    exact ⟨_, rfl, by simp [hlen]⟩

theorem getGranulesToWrite_exact (plan : List Nat) (R cur : Nat) (tail : List Nat)
    (hdrop : plan.drop cur = tail) (hsum : tail.sum = R)
    (hpos : ∀ x ∈ tail, 0 < x) (hR : 0 < R) :
    ∃ gs, getGranulesToWrite plan R cur false = Except.ok gs ∧
      cur + gs.length = plan.length := by
  have htne : tail ≠ [] := by
    intro hnil
    subst hnil
    simp at hsum
    omega
  have hcur : cur < plan.length := by
    by_contra hge
    rw [List.drop_eq_nil_of_le (by omega)] at hdrop
    exact htne hdrop.symm
  have hlendrop : tail.length = plan.length - cur := by
    rw [← hdrop, List.length_drop]
  obtain ⟨gs, hok, hlen⟩ := granulesLoop_exact plan R tail R 0 cur hdrop
    (by omega) (by omega) hpos (by omega)
  refine ⟨gs, ?_, by omega⟩
  rw [getGranulesToWrite, if_neg (by omega)]
  exact hok

theorem getGranules_short (plan : List Nat) (R cur : Nat)
    (hcur : cur < plan.length) (hR : 0 < R) (hlt : R < getMarkRows plan cur) :
    getGranulesToWrite plan R cur true =
      Except.ok [{ start_row := 0, rows_to_write := R, mark_number := cur,
                   mark_on_start := true, is_complete := false }] := by
  obtain ⟨r, rfl⟩ : ∃ r, R = r + 1 := ⟨R - 1, by omega⟩
  rw [getGranulesToWrite, if_neg (by omega)]
  rw [granulesLoop.eq_def]
  have h0 : (0:Nat) < r + 1 := by omega
  simp only [h0, if_true, Nat.sub_zero]
  have hcond : ¬ (r + 1 < getMarkRows plan cur ∧ (true : Bool) = false) := by
    rintro ⟨-, hc⟩
    exact absurd hc (by simp)
  rw [if_neg hcond]
  have hmin : min (r + 1) (getMarkRows plan cur) = r + 1 := by omega
  have hdec : decide (getMarkRows plan cur ≤ r + 1) = false :=
    decide_eq_false (by omega)
  rw [hmin, hdec]
  rw [granulesLoop_stop plan (r + 1) true r (0 + (r + 1)) (cur + 1) (by omega)]

/-! ## C2: small facts about the plan structure -/

theorem getMarkRows_append_left (p q : List Nat) (i : Nat) (h : i < p.length) :
    getMarkRows (p ++ q) i = getMarkRows p i := by
  simp only [getMarkRows, List.getD_eq_getElem?_getD, List.getElem?_append, h, if_true]

theorem getMarkRows_append_self (p : List Nat) (t0 : Nat) (q : List Nat) :
    getMarkRows (p ++ t0 :: q) p.length = t0 := by
  have h : (p ++ t0 :: q)[p.length]? = some t0 := by
    rw [List.getElem?_append_right (Nat.le_refl p.length)]
    simp
  simp [getMarkRows, List.getD_eq_getElem?_getD, h]

theorem getLast_decomp (plan : List Nat) (a : Nat) (h : plan.getLast? = some a) :
    plan = plan.dropLast ++ [a] := by
  cases plan with
  | nil => simp at h
  | cons x xs =>
    have hne : x :: xs ≠ [] := by simp
    have hlast : (x :: xs).getLast hne = a := by
      rw [List.getLast?_eq_getLast _ hne] at h
      injection h
    conv_lhs => rw [← List.dropLast_append_getLast hne]
    rw [hlast]

theorem getLast_le_sum (plan : List Nat) (a : Nat) (h : plan.getLast? = some a) :
    a ≤ plan.sum := by
  conv_rhs => rw [getLast_decomp plan a h]
  rw [List.sum_append]
  simp

theorem getMarkRows_last (plan : List Nat) (cur a : Nat)
    (hcur : cur + 1 = plan.length) (h : plan.getLast? = some a) :
    getMarkRows plan cur = a := by
  have hd := getLast_decomp plan a h
  have hlen : plan.dropLast.length = cur := by
    have := List.length_dropLast plan
    omega
  conv_lhs => rw [hd, ← hlen]
  exact getMarkRows_append_self plan.dropLast a []

theorem marksOK_append (G : Nat) (p q : List Nat) (hp : marksOK G p) (hq : marksOK G q) :
    marksOK G (p ++ q) := by
  intro x hx
  rcases List.mem_append.mp hx with h | h
  · exact hp x h
  · exact hq x h

theorem marksOK_replicate (G k : Nat) (hG : 0 < G) :
    marksOK G (List.replicate k G) := by
  intro x hx
  rw [List.eq_of_mem_replicate hx]
  omega

theorem marksOK_dropLast (G : Nat) (p : List Nat) (hp : marksOK G p) :
    marksOK G p.dropLast := fun x hx => hp x (List.dropLast_subset p hx)

theorem sum_replicate_G (k G : Nat) : (List.replicate k G).sum = k * G := by
  induction k with
  | zero => simp
  | succ k ih => rw [List.replicate_succ, List.sum_cons, ih]; ring

/-- Shape of `fillTail` when at least one full granule fits: marks are
appended (the grow branch is impossible), they sum to `m`, and they all
satisfy the half-to-double size bound. -/
theorem fillTail_append_shape (plan : List Nat) (G m : Nat) (hG : 0 < G)
    (hm : G ≤ m) :
    ∃ tail, fillTail plan G m = plan ++ tail ∧ tail ≠ [] ∧ tail.sum = m ∧
      marksOK G tail := by
  have hdm := Nat.div_add_mod m G
  have hdiv1 : 1 ≤ m / G := (Nat.le_div_iff_mul_le hG).mpr (by omega)
  have hmodlt : m % G < G := Nat.mod_lt _ hG
  rw [fillTail]
  by_cases h0 : m % G = 0
  · rw [if_pos h0]
    refine ⟨List.replicate (m / G) G, rfl, ?_, ?_, marksOK_replicate G _ hG⟩
    · intro hnil
      rw [List.replicate_eq_nil_iff] at hnil
      omega
    · rw [sum_replicate_G, Nat.mul_comm]
      omega
  · rw [if_neg h0]
    by_cases hhalf : G ≤ 2 * (m % G)
    · rw [if_pos hhalf]
      refine ⟨List.replicate (m / G) G ++ [m % G], List.append_assoc _ _ _, by simp, ?_, ?_⟩
      · rw [List.sum_append, sum_replicate_G, Nat.mul_comm]
        simp
        omega
      · refine marksOK_append G _ _ (marksOK_replicate G _ hG) ?_
        intro x hx
        simp at hx
        subst hx
        omega
    · rw [if_neg hhalf]
      have hq : ¬ m / G = 0 := by omega
      rw [if_neg hq]
      refine ⟨List.replicate (m / G - 1) G ++ [G + m % G], List.append_assoc _ _ _, by simp, ?_, ?_⟩
      · rw [List.sum_append, sum_replicate_G]
        simp
        have hstep : (m / G - 1) * G + G = G * (m / G) := by
          have h1 : 1 ≤ m / G := hdiv1
          calc (m / G - 1) * G + G = (m / G - 1 + 1) * G := by ring
          _ = (m / G) * G := by rw [Nat.sub_add_cancel h1]
          _ = G * (m / G) := by ring
        omega
      · refine marksOK_append G _ _ (marksOK_replicate G _ hG) ?_
        intro x hx
        simp at hx
        subst hx
        omega

/-- Shape of `fillTail` for a short remainder that still starts a new mark. -/
theorem fillTail_half (plan : List Nat) (G m : Nat) (_hG : 0 < G) (hm : 0 < m)
    (hlt : m < G) (hhalf : G ≤ 2 * m) :
    fillTail plan G m = plan ++ [m] := by
  have hmod : m % G = m := Nat.mod_eq_of_lt hlt
  have hdiv : m / G = 0 := Nat.div_eq_of_lt hlt
  rw [fillTail, if_neg (by omega), if_pos (by omega), hdiv, hmod]
  simp

/-- Shape of `fillTail` for a short remainder that grows the last mark. -/
theorem fillTail_grow (plan : List Nat) (G m : Nat) (_hG : 0 < G) (hm : 0 < m)
    (hlt : m < G) (hhalf : ¬ G ≤ 2 * m) :
    fillTail plan G m = addRowsToLastMark plan m := by
  have hmod : m % G = m := Nat.mod_eq_of_lt hlt
  have hdiv : m / G = 0 := Nat.div_eq_of_lt hlt
  rw [fillTail, if_neg (by omega), if_neg (by omega), if_pos hdiv]

/-! ## C2: one `write` call preserves the writer invariant -/

theorem writeBlock_flush (G n : Nat) (s : GranState) (plan' tail : List Nat)
    (hplan : fillIndexGranularity G n s = plan')
    (hdrop : plan'.drop s.cur = tail)
    (hsum : tail.sum = s.buf + n)
    (hpos : ∀ x ∈ tail, 0 < x)
    (hbufn : 0 < s.buf + n)
    (hcmr : getMarkRows plan' s.cur ≤ s.buf + n) :
    writeBlock G n s = Except.ok ⟨plan', plan'.length, 0⟩ := by
  obtain ⟨gs, hok, hlen⟩ := getGranulesToWrite_exact plan' (s.buf + n) s.cur tail
    hdrop hsum hpos hbufn
  rw [writeBlock]
  simp only [hplan]
  rw [if_pos hcmr, hok]
  simp [hlen]

theorem writeBlock_noflush (G n : Nat) (s : GranState) (plan' : List Nat)
    (hplan : fillIndexGranularity G n s = plan')
    (hcmr : ¬ getMarkRows plan' s.cur ≤ s.buf + n) :
    writeBlock G n s = Except.ok ⟨plan', s.cur, s.buf + n⟩ := by
  rw [writeBlock]
  simp only [hplan]
  rw [if_neg hcmr]

theorem writeBlock_stepA (G n total : Nat) (s : GranState) (hG : 0 < G) (hn : 0 < n)
    (hcur : s.cur = s.plan.length) (hbuf : s.buf = 0) (hsum : s.plan.sum = total)
    (hok : marksOK G s.plan) (hge : s.plan = [] ∨ G ≤ s.plan.sum) :
    ∃ s', writeBlock G n s = Except.ok s' ∧ WriterInv G (total + n) s' := by
  have hfill : fillIndexGranularity G n s = fillIndexGranularityImpl s.plan 0 G n := by
    rw [fillIndexGranularity, if_neg (by omega)]
  by_cases hng : n < G
  · -- a single full-size mark is appended and the buffer keeps the rows
    have hplan : fillIndexGranularity G n s = s.plan ++ [G] := by
      rw [hfill, fill0_lt s.plan G n hn hng]
    have hcmr : getMarkRows (s.plan ++ [G]) s.cur = G := by
      rw [hcur]
      exact getMarkRows_append_self s.plan G []
    have hnof : ¬ getMarkRows (s.plan ++ [G]) s.cur ≤ s.buf + n := by
      rw [hcmr, hbuf]
      omega
    refine ⟨_, writeBlock_noflush G n s (s.plan ++ [G]) hplan hnof, Or.inr ?_⟩
    refine ⟨by simp [hcur], by show 0 < s.buf + n; omega,
      by show s.buf + n < G; omega, by simp, ?_, ?_, ?_⟩
    · simp only [List.sum_append, List.sum_cons, List.sum_nil]
      omega
    · refine marksOK_append G s.plan [G] hok ?_
      intro x hx
      simp at hx
      subst hx
      omega
    · rw [List.dropLast_concat]
      rcases hge with h | h
      · exact Or.inl h
      · exact Or.inr (by omega)
  · -- at least one full granule: the whole buffer is flushed
    have hng' : G ≤ n := by omega
    obtain ⟨tail, htail, htne, htsum, htok⟩ := fillTail_append_shape s.plan G n hG hng'
    have hplan : fillIndexGranularity G n s = s.plan ++ tail := by
      rw [hfill, fill0_ge s.plan G n hG hng', htail]
    obtain ⟨t0, trest, rfl⟩ : ∃ t0 trest, tail = t0 :: trest := by
      cases tail with
      | nil => exact absurd rfl htne
      | cons a b => exact ⟨a, b, rfl⟩
    have hdrop : (s.plan ++ t0 :: trest).drop s.cur = t0 :: trest := by
      rw [hcur]
      exact List.drop_left s.plan _
    have hcmr : getMarkRows (s.plan ++ t0 :: trest) s.cur = t0 := by
      rw [hcur]
      exact getMarkRows_append_self s.plan t0 trest
    have hsum' : (t0 :: trest).sum = s.buf + n := by
      rw [hbuf, htsum]
      omega
    have hpos' : ∀ x ∈ t0 :: trest, 0 < x := fun x hx => by
      have := htok x hx
      omega
    have hle : getMarkRows (s.plan ++ t0 :: trest) s.cur ≤ s.buf + n := by
      rw [hcmr]
      have h1 : t0 ≤ (t0 :: trest).sum := by
        simp only [List.sum_cons]
        omega
      omega
    refine ⟨_, writeBlock_flush G n s _ _ hplan hdrop hsum' hpos' (by omega) hle,
      Or.inl ?_⟩
    refine ⟨rfl, rfl, ?_, marksOK_append G _ _ hok htok, Or.inr ?_⟩
    · rw [List.sum_append, hsum, htsum]
    · rw [List.sum_append, hsum, htsum]
      omega

theorem writeBlock_stepB (G n total : Nat) (s : GranState) (hG : 0 < G) (hn : 0 < n)
    (hcur : s.cur + 1 = s.plan.length) (hbufpos : 0 < s.buf) (hbuflt : s.buf < G)
    (hlast : s.plan.getLast? = some G) (hsum : s.plan.sum + s.buf = total + G)
    (hok : marksOK G s.plan) (hdl : s.plan.dropLast = [] ∨ G ≤ total) :
    ∃ s', writeBlock G n s = Except.ok s' ∧ WriterInv G (total + n) s' := by
  have hcmr0 : getMarkRows s.plan s.cur = G := getMarkRows_last s.plan s.cur G hcur hlast
  have hoff : fillIndexGranularity G n s =
      fillIndexGranularityImpl s.plan (G - s.buf) G n := by
    rw [fillIndexGranularity, if_pos (by omega), hcmr0]
  have hGsum : G ≤ s.plan.sum := getLast_le_sum s.plan G hlast
  have hdropG : s.plan.drop s.cur = [G] := by
    have h := drop_at_last s.plan s.cur hcur
    rwa [hcmr0] at h
  have hDLsum : s.plan.sum = s.plan.dropLast.sum + G := by
    conv_lhs => rw [getLast_decomp s.plan G hlast]
    rw [List.sum_append]
    simp
  by_cases hno : n ≤ G - s.buf
  · -- no row position is visited: the plan is unchanged
    have hplan : fillIndexGranularity G n s = s.plan := by
      rw [hoff, fill_none s.plan (G - s.buf) G n hno]
    by_cases hfl : s.buf + n = G
    · -- the buffer now exactly fills the current mark: flush it
      have hflush := writeBlock_flush G n s s.plan [G] hplan hdropG
        (by simp [hfl]) (by intro x hx; simp at hx; omega) (by omega)
        (by rw [hcmr0]; omega)
      refine ⟨_, hflush, Or.inl ⟨rfl, rfl, by show s.plan.sum = total + n; omega,
        hok, Or.inr (by show G ≤ s.plan.sum; omega)⟩⟩
    · -- the buffer still falls short of the current mark
      have hnof : ¬ getMarkRows s.plan s.cur ≤ s.buf + n := by
        rw [hcmr0]
        omega
      refine ⟨_, writeBlock_noflush G n s s.plan hplan hnof, Or.inr ?_⟩
      refine ⟨hcur, by show 0 < s.buf + n; omega, by show s.buf + n < G; omega,
        hlast, by show s.plan.sum + (s.buf + n) = (total + n) + G; omega, hok, ?_⟩
      rcases hdl with h | h
      · exact Or.inl h
      · exact Or.inr (by omega)
  · -- the walk visits at least one position beyond the current mark
    have hofflt : G - s.buf < n := by omega
    have hoffne : G - s.buf ≠ 0 := by omega
    have hplan0 : fillIndexGranularity G n s = fillTail s.plan G (n - (G - s.buf)) := by
      rw [hoff, fill_off s.plan (G - s.buf) G n hG hoffne hofflt]
    have hmpos : 0 < n - (G - s.buf) := by omega
    have hbufn : s.buf + n = G + (n - (G - s.buf)) := by omega
    by_cases hsmall : n - (G - s.buf) < G
    · by_cases hhalf : G ≤ 2 * (n - (G - s.buf))
      · -- remainder at least half the target: a new mark is appended
        have hplan : fillIndexGranularity G n s = s.plan ++ [n - (G - s.buf)] := by
          rw [hplan0, fillTail_half s.plan G _ hG hmpos hsmall hhalf]
        have hdrop : (s.plan ++ [n - (G - s.buf)]).drop s.cur = [G, n - (G - s.buf)] := by
          rw [List.drop_append_of_le_length (by omega), hdropG]
          rfl
        have hcmr : getMarkRows (s.plan ++ [n - (G - s.buf)]) s.cur = G := by
          rw [getMarkRows_append_left s.plan _ s.cur (by omega), hcmr0]
        have hflush := writeBlock_flush G n s _ _ hplan hdrop
          (by simp only [List.sum_cons, List.sum_nil]; omega)
          (by intro x hx; simp at hx; rcases hx with h | h <;> omega)
          (by omega) (by rw [hcmr]; omega)
        refine ⟨_, hflush, Or.inl ⟨rfl, rfl, ?_, ?_, Or.inr ?_⟩⟩
        · rw [List.sum_append]
          simp only [List.sum_cons, List.sum_nil]
          omega
        · refine marksOK_append G _ _ hok ?_
          intro x hx
          simp at hx
          subst hx
          omega
        · rw [List.sum_append]
          omega
      · -- remainder below half: the last (current) mark is grown in place
        have haddr : addRowsToLastMark s.plan (n - (G - s.buf)) =
            s.plan.dropLast ++ [G + (n - (G - s.buf))] := by
          rw [addRowsToLastMark, hlast]
        have hplan : fillIndexGranularity G n s =
            s.plan.dropLast ++ [G + (n - (G - s.buf))] := by
          rw [hplan0, fillTail_grow s.plan G _ hG hmpos hsmall hhalf, haddr]
        have hlenDL : s.plan.dropLast.length = s.cur := by
          have := List.length_dropLast s.plan
          omega
        have hcur' : s.cur + 1 = (s.plan.dropLast ++ [G + (n - (G - s.buf))]).length := by
          simp [hlenDL]
        have hcmr : getMarkRows (s.plan.dropLast ++ [G + (n - (G - s.buf))]) s.cur =
            G + (n - (G - s.buf)) := by
          conv_lhs => rw [← hlenDL]
          exact getMarkRows_append_self s.plan.dropLast _ []
        have hdrop : (s.plan.dropLast ++ [G + (n - (G - s.buf))]).drop s.cur =
            [G + (n - (G - s.buf))] := by
          have h := drop_at_last _ s.cur hcur'
          rwa [hcmr] at h
        have hflush := writeBlock_flush G n s _ _ hplan hdrop
          (by simp only [List.sum_cons, List.sum_nil]; omega)
          (by intro x hx; simp at hx; omega)
          (by omega) (by rw [hcmr]; omega)
        refine ⟨_, hflush, Or.inl ⟨rfl, rfl, ?_, ?_, Or.inr ?_⟩⟩
        · rw [List.sum_append]
          simp only [List.sum_cons, List.sum_nil]
          omega
        · refine marksOK_append G _ _ (marksOK_dropLast G _ hok) ?_
          intro x hx
          simp at hx
          subst hx
          omega
        · rw [List.sum_append]
          simp only [List.sum_cons, List.sum_nil]
          omega
    · -- at least one further full granule fits
      have hsmall' : G ≤ n - (G - s.buf) := by omega
      obtain ⟨tail, htail, htne, htsum, htok⟩ :=
        fillTail_append_shape s.plan G _ hG hsmall'
      have hplan : fillIndexGranularity G n s = s.plan ++ tail := by
        rw [hplan0, htail]
      have hdrop : (s.plan ++ tail).drop s.cur = G :: tail := by
        rw [List.drop_append_of_le_length (by omega), hdropG]
        rfl
      have hcmr : getMarkRows (s.plan ++ tail) s.cur = G := by
        rw [getMarkRows_append_left s.plan _ s.cur (by omega), hcmr0]
      have hflush := writeBlock_flush G n s _ _ hplan hdrop
        (by simp only [List.sum_cons]; omega)
        (by intro x hx
            rcases List.mem_cons.mp hx with h | h
            · omega
            · have := htok x h
              omega)
        (by omega) (by rw [hcmr]; omega)
      refine ⟨_, hflush, Or.inl ⟨rfl, rfl, ?_, marksOK_append G _ _ hok htok,
        Or.inr ?_⟩⟩
      · rw [List.sum_append]
        omega
      · rw [List.sum_append]
        omega

theorem writeBlock_preserves (G n total : Nat) (s : GranState) (hG : 0 < G)
    (hn : 0 < n) (hinv : WriterInv G total s) :
    ∃ s', writeBlock G n s = Except.ok s' ∧ WriterInv G (total + n) s' := by
  rcases hinv with ⟨h1, h2, h3, h4, h5⟩ | ⟨h1, h2, h3, h4, h5, h6, h7⟩
  · exact writeBlock_stepA G n total s hG hn h1 h2 h3 h4 h5
  · exact writeBlock_stepB G n total s hG hn h1 h2 h3 h4 h5 h6 h7

theorem runBlocks_preserves (G : Nat) (hG : 0 < G) :
    ∀ (blocks : List Nat) (total : Nat) (s : GranState),
      (∀ b ∈ blocks, 0 < b) → WriterInv G total s →
      ∃ s', runBlocks G blocks s = Except.ok s' ∧
        WriterInv G (total + blocks.sum) s' := by
  intro blocks
  induction blocks with
  | nil =>
    intro total s hpos hinv
    refine ⟨s, rfl, ?_⟩
    simpa using hinv
  | cons b rest ih =>
    intro total s hpos hinv
    obtain ⟨s', hws, hinv'⟩ := writeBlock_preserves G b total s hG
      (hpos b (List.mem_cons_self b rest)) hinv
    obtain ⟨s'', hrun, hinv''⟩ := ih (total + b) s'
      (fun x hx => hpos x (List.mem_cons_of_mem b hx)) hinv'
    refine ⟨s'', ?_, ?_⟩
    · rw [runBlocks, hws]
      exact hrun
    · simp only [List.sum_cons]
      have harr : total + (b + rest.sum) = total + b + rest.sum := by omega
      rw [harr]
      exact hinv''

theorem finalFlush_inv (G total : Nat) (s : GranState) (_hG : 0 < G)
    (htot : 0 < total) (hinv : WriterInv G total s) :
    ∃ p, finalFlushPlan s.plan s.cur s.buf = Except.ok p ∧ p.sum = total ∧
      (∀ x ∈ p.dropLast, G ≤ 2 * x ∧ x < 2 * G) ∧ (total < G → p = [total]) := by
  rcases hinv with ⟨h1, h2, h3, h4, h5⟩ | ⟨h1, h2, h3, h4, h5, h6, h7⟩
  · refine ⟨s.plan, ?_, h3, fun x hx => h4 x (List.dropLast_subset _ hx), ?_⟩
    · rw [finalFlushPlan, if_neg (by omega)]
    · intro hlt
      exfalso
      rcases h5 with h | h
      · rw [h] at h3
        simp at h3
        omega
      · omega
  · have hcmr : getMarkRows s.plan s.cur = G := getMarkRows_last s.plan s.cur G h1 h4
    have hcl : s.cur < s.plan.length := by omega
    have hshort := getGranules_short s.plan s.buf s.cur hcl h2 (by rw [hcmr]; omega)
    have hDL : s.plan.sum = s.plan.dropLast.sum + G := by
      conv_lhs => rw [getLast_decomp s.plan G h4]
      rw [List.sum_append]
      simp
    refine ⟨s.plan.dropLast ++ [s.buf], ?_, ?_, ?_, ?_⟩
    · rw [finalFlushPlan, if_pos (by omega), hshort]
      simp [appendMark, popMark]
    · rw [List.sum_append]
      simp only [List.sum_cons, List.sum_nil]
      omega
    · rw [List.dropLast_concat]
      exact fun x hx => h6 x (List.dropLast_subset _ hx)
    · intro hlt
      rcases h7 with h | h
      · rw [h]
        have hbt : s.buf = total := by
          rw [h] at hDL
          simp at hDL
          omega
        rw [hbt]
        rfl
      · exfalso
        omega

/-- C2.  For every non-empty sequence of input blocks (each with at least
one row) whose concatenated row count is `R`, written with target granule
size `G ≥ 1` and then finally flushed, the writer succeeds and the
resulting granularity plan's mark row counts sum to exactly `R`, every mark
except possibly the last has a row count in `[G/2, 2G)`, and in the
boundary case `R < G` the plan is the single mark `[R]`. -/
theorem runWriter_granularity (G : Nat) (blocks : List Nat) (hG : 0 < G)
    (hne : blocks ≠ []) (hpos : ∀ b ∈ blocks, 0 < b) :
    ∃ p, runWriter G blocks = Except.ok p ∧
      p.sum = blocks.sum ∧
      (∀ x ∈ p.dropLast, G / 2 ≤ x ∧ x < 2 * G) ∧
      (blocks.sum < G → p = [blocks.sum]) := by
  have hbase : WriterInv G 0 ⟨[], 0, 0⟩ :=
    Or.inl ⟨rfl, rfl, rfl, fun x hx => absurd hx (List.not_mem_nil x), Or.inl rfl⟩
  obtain ⟨s, hrun, hinv⟩ := runBlocks_preserves G hG blocks 0 ⟨[], 0, 0⟩ hpos hbase
  have htot : 0 < blocks.sum := by
    cases blocks with
    | nil => exact absurd rfl hne
    | cons b rest =>
      have := hpos b (List.mem_cons_self b rest)
      simp only [List.sum_cons]
      omega
  rw [show (0 + blocks.sum) = blocks.sum from by omega] at hinv
  obtain ⟨p, hfin, hsum, hmarks, hsingle⟩ :=
    finalFlush_inv G blocks.sum s hG htot hinv
  refine ⟨p, ?_, hsum, ?_, hsingle⟩
  · rw [runWriter, hrun]
    exact hfin
  · intro x hx
    have := hmarks x hx
    exact ⟨by omega, by omega⟩

theorem runWriter_granularity_witness :
    0 < 3 ∧ ([2] : List Nat) ≠ [] ∧ (∀ b ∈ ([2] : List Nat), 0 < b) ∧
    (∃ p, runWriter 3 [2] = Except.ok p ∧
      p.sum = ([2] : List Nat).sum ∧
      (∀ x ∈ p.dropLast, 3 / 2 ≤ x ∧ x < 2 * 3) ∧
      (([2] : List Nat).sum < 3 → p = [([2] : List Nat).sum])) :=
  ⟨by decide, by decide, by decide,
    runWriter_granularity 3 [2] (by decide) (by decide) (by decide)⟩

end CompactWriter
